import Mathlib

/-!
# Verification of the chess rules engine (`ChessGame`)

A shallow embedding of the `ChessGame` class of the repository's core module,
together with proofs about its behaviour.  The embedding mirrors the
TypeScript source:

* a piece code `"wK"`, `"bP"`, … becomes a `Piece` (tagged colour × type;
  `charAt(0)` is the `color` field, `[1]` the `ptype` field);
* a square is the underlying string, kept as a `List Char` (so malformed
  inputs such as `""` or `"z9"` stay representable, as the source's
  `getPiece` accepts any string);
* the `position` object becomes an insertion-ordered association list:
  JavaScript objects with non-numeric string keys iterate in insertion
  order, assignment to an existing key updates in place, assignment to a
  fresh key appends, and `delete` removes the entry — `posSet`/`posDel`
  implement exactly that;
* JavaScript number quirks that the source relies on are modelled
  explicitly: `parseInt` of a non-digit gives `NaN` (here `Option Int`
  with `none` for `NaN`; every comparison with `NaN` is false),
  `"abcdefgh".indexOf(c)` gives `-1` for an absent character, and template
  interpolation of `NaN`/`undefined` renders the strings `"NaN"` /
  `"undefined"`.
-/

set_option maxRecDepth 4000

/-- Piece colour: `"w"` or `"b"` (the first character of a piece code). -/
inductive Color where
  | w : Color
  | b : Color
deriving DecidableEq, Repr

/-- Piece type: the second character of a piece code (`K Q R B N P`). -/
inductive PType where
  | K : PType
  | Q : PType
  | R : PType
  | B : PType
  | N : PType
  | P : PType
deriving DecidableEq, Repr

/-- A chess piece, i.e. a non-null `ChessPiece` string such as `"wN"`. -/
structure Piece where
  color : Color
  ptype : PType
deriving DecidableEq, Repr

/-- A square identifier: the raw string, e.g. `['e','4']`. -/
abbrev Square := List Char

/-- The sparse `ChessPosition` object: insertion-ordered key/piece entries. -/
abbrev ChessPosition := List (Square × Piece)

/-- A history entry (`Move` in the source); `san` models the `notation` field. -/
structure Move where
  fromSq : Square
  toSq : Square
  piece : Piece
  captured : Option Piece
  san : List Char
deriving DecidableEq, Repr

/-- The mutable state of a `ChessGame` instance. -/
structure GameState where
  position : ChessPosition
  currentPlayer : Color
  moveHistory : List Move
deriving DecidableEq, Repr

/-- Reading `this.position[square]`: first (= only) entry with that key. -/
def posGet (pos : ChessPosition) (sq : Square) : Option Piece :=
  match pos with
  | [] => none
  | (k, v) :: rest => if k = sq then some v else posGet rest sq

/-- `this.position[square] = piece`: update in place, or append a fresh key. -/
def posSet (pos : ChessPosition) (sq : Square) (pc : Piece) : ChessPosition :=
  match pos with
  | [] => [(sq, pc)]
  | (k, v) :: rest => if k = sq then (k, pc) :: rest else (k, v) :: posSet rest sq pc

/-- `delete this.position[square]`. -/
def posDel (pos : ChessPosition) (sq : Square) : ChessPosition :=
  match pos with
  | [] => []
  | (k, v) :: rest => if k = sq then posDel rest sq else (k, v) :: posDel rest sq

/-- `square.charCodeAt(0)` etc.: a missing character is JS `undefined`/`NaN`. -/
def isFileChar (c : Char) : Bool :=
  97 ≤ c.toNat && c.toNat ≤ 104

/-- `[1-8]` character test, by character code (`'1'` = 49 … `'8'` = 56). -/
def isRankChar (c : Char) : Bool :=
  49 ≤ c.toNat && c.toNat ≤ 56

/-- The regex `^[a-h][1-8]$` of `isValidSquare`. -/
def isValidSquare (sq : Square) : Bool :=
  match sq with
  | [f, r] => isFileChar f && isRankChar r
  | _ => false

/-- `"abcdefgh".indexOf(file)`: `-1` when the character is absent
(including JS `undefined` when the string is too short). -/
def fileIndexOf (c : Option Char) : Int :=
  match c with
  | some ch => if isFileChar ch then (ch.toNat : Int) - 97 else -1
  | none => -1

/-- `Number.parseInt(rank)` for a single character; `none` is JS `NaN`. -/
def parseIntChar (c : Option Char) : Option Int :=
  match c with
  | some ch => if 48 ≤ ch.toNat && ch.toNat ≤ 57 then some ((ch.toNat : Int) - 48) else none
  | none => none

/-- `Number.parseInt(rank) - 1`, `NaN`-propagating. -/
def rankIndexOf (sq : Square) : Option Int :=
  (parseIntChar sq[1]?).map (fun n => n - 1)

/-- Addition with a `NaN`-propagating left operand. -/
def optAdd (a : Option Int) (k : Int) : Option Int :=
  a.map (fun n => n + k)

/-- A JS bounds check `0 <= x && x < 8` on an exact number. -/
def inBoard (x : Int) : Bool :=
  0 ≤ x && x < 8

/-- The same bounds check when the number may be `NaN` (then always false). -/
def inBoardOpt (x : Option Int) : Bool :=
  match x with
  | some n => inBoard n
  | none => false

/-- `"abcdefgh"[i]`; call sites guard `0 ≤ i < 8` first. -/
def fileCharAt (i : Int) : Char :=
  (['a', 'b', 'c', 'd', 'e', 'f', 'g', 'h'] : List Char).getD i.toNat 'a'

/-- Decimal digits of a natural number (the fuel is always sufficient). -/
def natDigits : Nat → Nat → List Char
  | 0, _ => []
  | fuel + 1, n =>
    if n < 10 then [Char.ofNat (48 + n)]
    else natDigits fuel (n / 10) ++ [Char.ofNat (48 + n % 10)]

/-- Template interpolation `${n}` of an exact JS number. -/
def renderInt (n : Int) : List Char :=
  if n < 0 then '-' :: natDigits (n.natAbs + 1) n.natAbs
  else natDigits (n.toNat + 1) n.toNat

/-- Template interpolation `${n}` of a possibly-`NaN` number. -/
def renderNum (n : Option Int) : List Char :=
  match n with
  | some k => renderInt k
  | none => ['N', 'a', 'N']

/-- Template interpolation `${c}` of a character-or-`undefined`. -/
def renderOptChar (c : Option Char) : List Char :=
  match c with
  | some ch => [ch]
  | none => ['u', 'n', 'd', 'e', 'f', 'i', 'n', 'e', 'd']

/-- JS string comparison `a < b` (lexicographic by character code). -/
def strLt : List Char → List Char → Bool
  | [], [] => false
  | [], _ :: _ => true
  | _ :: _, [] => false
  | a :: as, b :: bs => if a.toNat < b.toNat then true else if b.toNat < a.toNat then false else strLt as bs

/-- The SAN letter of a piece type (`piece[1]` of the piece code). -/
def typeChar : PType → Char
  | PType.K => 'K'
  | PType.Q => 'Q'
  | PType.R => 'R'
  | PType.B => 'B'
  | PType.N => 'N'
  | PType.P => 'P'

/-- Switch turns: `currentPlayer === "w" ? "b" : "w"`. -/
def flipColor : Color → Color
  | Color.w => Color.b
  | Color.b => Color.w

/-- `direction = color === "w" ? 1 : -1`. -/
def pawnDirection : Color → Int
  | Color.w => 1
  | Color.b => -1

/-- `startRank = color === "w" ? 1 : 6` (an index, not a rank character). -/
def pawnStartRank : Color → Int
  | Color.w => 1
  | Color.b => 6

/-- The one-square pawn advance `${file}${rankIndex + 1 + direction}`. -/
def pawnOneForward (square : Square) (color : Color) : Square :=
  renderOptChar square.head? ++ renderNum (optAdd (optAdd (rankIndexOf square) 1) (pawnDirection color))

/-- The two-square pawn advance `${file}${rankIndex + 1 + direction * 2}`. -/
def pawnTwoForward (square : Square) (color : Color) : Square :=
  renderOptChar square.head? ++ renderNum (optAdd (optAdd (rankIndexOf square) 1) (pawnDirection color * 2))

/-- The pawn capture target `${"abcdefgh"[fileIndex + off]}${rankIndex + 1 + direction}`. -/
def pawnCaptureSquare (square : Square) (color : Color) (off : Int) : Square :=
  [fileCharAt (fileIndexOf square.head? + off)] ++
    renderNum (optAdd (optAdd (rankIndexOf square) 1) (pawnDirection color))

/-- `getPawnMoves`: forward advances (two-step only from the start rank and
only through an empty intervening square) and occupied diagonal captures.
No en-passant destinations are produced. -/
def getPawnMoves (pos : ChessPosition) (square : Square) (color : Color) : List Square :=
  (if isValidSquare (pawnOneForward square color) && (posGet pos (pawnOneForward square color)).isNone then
    pawnOneForward square color ::
      (if rankIndexOf square = some (pawnStartRank color) then
        (if isValidSquare (pawnTwoForward square color) && (posGet pos (pawnTwoForward square color)).isNone then
          [pawnTwoForward square color]
        else [])
      else [])
  else []) ++
  (([-1, 1] : List Int).filterMap fun off =>
    if inBoard (fileIndexOf square.head? + off) then
      match posGet pos (pawnCaptureSquare square color off) with
      | some target => if target.color ≠ color then some (pawnCaptureSquare square color off) else none
      | none => none
    else none)

/-- The eight knight offsets, in source order. -/
def knightOffsets : List (Int × Int) :=
  [(-2, -1), (-2, 1), (-1, -2), (-1, 2), (1, -2), (1, 2), (2, -1), (2, 1)]

/-- `getKnightMoves`: fixed offsets, bounds-checked. -/
def getKnightMoves (square : Square) : List Square :=
  knightOffsets.filterMap fun d =>
    if inBoard (fileIndexOf square.head? + d.1) && inBoardOpt (optAdd (rankIndexOf square) d.2) then
      some ([fileCharAt (fileIndexOf square.head? + d.1)] ++
        renderNum (optAdd (optAdd (rankIndexOf square) d.2) 1))
    else none

/-- The king's offsets: the double loop over `dx`, `dy` skipping `(0,0)`. -/
def kingOffsets : List (Int × Int) :=
  [(-1, -1), (-1, 0), (-1, 1), (0, -1), (0, 1), (1, -1), (1, 0), (1, 1)]

/-- `getKingMoves`: the eight adjacent squares only — no castling targets. -/
def getKingMoves (square : Square) : List Square :=
  kingOffsets.filterMap fun d =>
    if inBoard (fileIndexOf square.head? + d.1) && inBoardOpt (optAdd (rankIndexOf square) d.2) then
      some ([fileCharAt (fileIndexOf square.head? + d.1)] ++
        renderNum (optAdd (optAdd (rankIndexOf square) d.2) 1))
    else none

/-- The while-loop of `getLinearMoves`.  The fuel (16) exceeds the longest
possible in-bounds walk, so the recursion is exactly the source's loop:
continue through empty squares, stop after an enemy piece (included) or
before a friendly piece (excluded). -/
def getLinearMovesAux (pos : ChessPosition) (originColor : Color) :
    Nat → Int → Option Int → Int → Int → List Square
  | 0, _, _, _, _ => []
  | fuel + 1, nfi, nri, dx, dy =>
    if inBoard nfi && inBoardOpt nri then
      match posGet pos ([fileCharAt nfi] ++ renderNum (optAdd nri 1)) with
      | none =>
        ([fileCharAt nfi] ++ renderNum (optAdd nri 1)) ::
          getLinearMovesAux pos originColor fuel (nfi + dx) (optAdd nri dy) dx dy
      | some p =>
        if p.color ≠ originColor then [[fileCharAt nfi] ++ renderNum (optAdd nri 1)] else []
    else []

/-- `getLinearMoves(square, dx, dy)`.  The source dereferences
`this.getPiece(square)!` for the friendly-piece test; all call sites go
through `getValidMoves`, which guarantees the origin is occupied, so the
default used by `getD` is never observable. -/
def getLinearMoves (pos : ChessPosition) (square : Square) (dx dy : Int) : List Square :=
  getLinearMovesAux pos ((posGet pos square).getD ⟨Color.w, PType.K⟩).color 16
    (fileIndexOf square.head? + dx) (optAdd (rankIndexOf square) dy) dx dy

/-- `getRookMoves`: four orthogonal rays, in source order. -/
def getRookMoves (pos : ChessPosition) (square : Square) : List Square :=
  getLinearMoves pos square 0 1 ++ getLinearMoves pos square 0 (-1) ++
    getLinearMoves pos square 1 0 ++ getLinearMoves pos square (-1) 0

/-- `getBishopMoves`: four diagonal rays, in source order. -/
def getBishopMoves (pos : ChessPosition) (square : Square) : List Square :=
  getLinearMoves pos square 1 1 ++ getLinearMoves pos square 1 (-1) ++
    getLinearMoves pos square (-1) 1 ++ getLinearMoves pos square (-1) (-1)

/-- `getQueenMoves`: rook rays then bishop rays. -/
def getQueenMoves (pos : ChessPosition) (square : Square) : List Square :=
  getRookMoves pos square ++ getBishopMoves pos square

/-- `canMoveTo`: the final own-colour filter. -/
def canMoveTo (pos : ChessPosition) (fromSq toSq : Square) : Bool :=
  match posGet pos fromSq with
  | none => false
  | some fp =>
    match posGet pos toSq with
    | some tp => decide (tp.color ≠ fp.color)
    | none => true

/-- `getValidMoves`: empty for an empty square or a non-active colour;
otherwise the per-type pseudo-legal moves, filtered by `isValidSquare`
and `canMoveTo`. -/
def getValidMoves (g : GameState) (square : Square) : List Square :=
  match posGet g.position square with
  | none => []
  | some piece =>
    if piece.color ≠ g.currentPlayer then []
    else
      (match piece.ptype with
        | PType.P => getPawnMoves g.position square piece.color
        | PType.R => getRookMoves g.position square
        | PType.N => getKnightMoves square
        | PType.B => getBishopMoves g.position square
        | PType.Q => getQueenMoves g.position square
        | PType.K => getKingMoves square).filter
        (fun mv => isValidSquare mv && canMoveTo g.position square mv)

/-- `findAmbiguousMoves`: every other same-colour same-type piece whose
valid moves include the destination, in position iteration order. -/
def findAmbiguousMoves (g : GameState) (fromSq toSq : Square) (piece : Piece) : List Square :=
  g.position.filterMap fun e =>
    if e.2.color = piece.color ∧ e.2.ptype = piece.ptype ∧ e.1 ≠ fromSq ∧ toSq ∈ getValidMoves g e.1 then
      some e.1
    else none

/-- `generateMoveNotation` of the source.  Pawn moves: `<file>x<dest>` for a
capture or file change, else the bare destination.  Other pieces: type
letter, then a file / rank / full-square disambiguator when another piece
could also reach the destination, then `x` on capture, then destination. -/
def generateMoveSAN (g : GameState) (fromSq toSq : Square) (piece : Piece)
    (captured : Option Piece) : List Char :=
  match piece.ptype with
  | PType.P =>
    if captured.isSome || !decide (fromSq.head? = toSq.head?) then
      renderOptChar fromSq.head? ++ 'x' :: toSq
    else toSq
  | pt =>
    [typeChar pt] ++
      (if 0 < (findAmbiguousMoves g fromSq toSq piece).length then
        (if !(findAmbiguousMoves g fromSq toSq piece).any (fun mv => decide (mv.head? = fromSq.head?)) then
          renderOptChar fromSq.head?
        else if !(findAmbiguousMoves g fromSq toSq piece).any (fun mv => decide (mv[1]? = fromSq[1]?)) then
          renderOptChar fromSq[1]?
        else fromSq)
      else []) ++
      (if captured.isSome then ['x'] else []) ++ toSq

/-- `Math.abs(from.charCodeAt(0) - to.charCodeAt(0)) === 2`
(false when a code is `NaN`). -/
def fileDiffIsTwo (a b : Square) : Bool :=
  match a.head?, b.head? with
  | some x, some y => decide (((x.toNat : Int) - (y.toNat : Int)).natAbs = 2)
  | _, _ => false

/-- The castling rook relocation of `makeMove`: move the same-rank rook from
its home file to its post-castle file.  When the rook's home square is
empty the source stores `undefined` under the target key, which every read
in the class treats exactly like an absent key, so it is modelled as a
delete. -/
def castleRookAdjust (pos : ChessPosition) (fromSq toSq : Square) : ChessPosition :=
  posDel
    (match posGet pos ((if strLt fromSq toSq then ['h'] else ['a']) ++ renderOptChar fromSq[1]?) with
      | some rp => posSet pos ((if strLt fromSq toSq then ['f'] else ['d']) ++ renderOptChar fromSq[1]?) rp
      | none => posDel pos ((if strLt fromSq toSq then ['f'] else ['d']) ++ renderOptChar fromSq[1]?))
    ((if strLt fromSq toSq then ['h'] else ['a']) ++ renderOptChar fromSq[1]?)

/-- `makeMove`: validation (occupied origin, active colour, member of
`getValidMoves`), SAN generation, the castling branch for a king moving
two files, the board update, the history append and the turn flip. -/
def makeMove (g : GameState) (fromSq toSq : Square) : Bool × GameState :=
  match posGet g.position fromSq with
  | none => (false, g)
  | some piece =>
    if piece.color ≠ g.currentPlayer then (false, g)
    else if toSq ∉ getValidMoves g fromSq then (false, g)
    else
      (true,
        { position :=
            posDel
              (posSet
                (if piece.ptype = PType.K ∧ fileDiffIsTwo fromSq toSq then
                  castleRookAdjust g.position fromSq toSq
                else g.position)
                toSq piece)
              fromSq
          currentPlayer := flipColor g.currentPlayer
          moveHistory := g.moveHistory ++
            [{ fromSq := fromSq, toSq := toSq, piece := piece,
               captured := posGet g.position toSq,
               san :=
                 if piece.ptype = PType.K ∧ fileDiffIsTwo fromSq toSq then
                   (if strLt fromSq toSq then ['O', '-', 'O'] else ['O', '-', 'O', '-', 'O'])
                 else generateMoveSAN g fromSq toSq piece (posGet g.position toSq) }] })

/-- `getPiece(square)`. -/
def getPiece (g : GameState) (sq : Square) : Option Piece :=
  posGet g.position sq

/-- `getLastMoveNotation()`: the SAN of the last history entry, or `""`. -/
def getLastMoveSAN (g : GameState) : List Char :=
  match g.moveHistory.getLast? with
  | some m => m.san
  | none => []

/-- `clone()`: a fresh `GameState` with copied position and history. -/
def cloneGame (g : GameState) : GameState :=
  { position := g.position, currentPlayer := g.currentPlayer, moveHistory := g.moveHistory }

/-- The standard starting position, in the source's insertion order. -/
def initialPosition : ChessPosition :=
  [(['a','8'], ⟨Color.b, PType.R⟩), (['b','8'], ⟨Color.b, PType.N⟩),
   (['c','8'], ⟨Color.b, PType.B⟩), (['d','8'], ⟨Color.b, PType.Q⟩),
   (['e','8'], ⟨Color.b, PType.K⟩), (['f','8'], ⟨Color.b, PType.B⟩),
   (['g','8'], ⟨Color.b, PType.N⟩), (['h','8'], ⟨Color.b, PType.R⟩),
   (['a','7'], ⟨Color.b, PType.P⟩), (['b','7'], ⟨Color.b, PType.P⟩),
   (['c','7'], ⟨Color.b, PType.P⟩), (['d','7'], ⟨Color.b, PType.P⟩),
   (['e','7'], ⟨Color.b, PType.P⟩), (['f','7'], ⟨Color.b, PType.P⟩),
   (['g','7'], ⟨Color.b, PType.P⟩), (['h','7'], ⟨Color.b, PType.P⟩),
   (['a','2'], ⟨Color.w, PType.P⟩), (['b','2'], ⟨Color.w, PType.P⟩),
   (['c','2'], ⟨Color.w, PType.P⟩), (['d','2'], ⟨Color.w, PType.P⟩),
   (['e','2'], ⟨Color.w, PType.P⟩), (['f','2'], ⟨Color.w, PType.P⟩),
   (['g','2'], ⟨Color.w, PType.P⟩), (['h','2'], ⟨Color.w, PType.P⟩),
   (['a','1'], ⟨Color.w, PType.R⟩), (['b','1'], ⟨Color.w, PType.N⟩),
   (['c','1'], ⟨Color.w, PType.B⟩), (['d','1'], ⟨Color.w, PType.Q⟩),
   (['e','1'], ⟨Color.w, PType.K⟩), (['f','1'], ⟨Color.w, PType.B⟩),
   (['g','1'], ⟨Color.w, PType.N⟩), (['h','1'], ⟨Color.w, PType.R⟩)]

/-- A freshly constructed `ChessGame`. -/
def initialGame : GameState :=
  { position := initialPosition, currentPlayer := Color.w, moveHistory := [] }

/-- The trailing-glyph strip `notation.replace(/[+#!?]+$/, "")`. -/
def stripSANSuffix (n : List Char) : List Char :=
  (n.reverse.dropWhile fun c => c = '+' || c = '#' || c = '!' || c = '?').reverse

/-- A JS whitespace character (the ones `trim` can meet here). -/
def isWsChar (c : Char) : Bool :=
  c = ' ' || c = '\t' || c = '\n' || c = '\r'

/-- `.trim()`. -/
def jsTrim (n : List Char) : List Char :=
  ((n.dropWhile isWsChar).reverse.dropWhile isWsChar).reverse

/-- The data extracted by the pattern chain of `parseAlgebraicNotation`:
piece letter, optional origin-file / origin-rank constraint, capture flag
and destination.  An absent constraint is the source's `""` (falsy). -/
structure SANParts where
  pieceType : Char
  fromFile : Option Char
  fromRank : Option Char
  isCapture : Bool
  toSquare : Square
deriving DecidableEq, Repr

/-- `[KQRBN]` test of the piece-move patterns. -/
def isPieceChar (c : Char) : Bool :=
  c = 'K' || c = 'Q' || c = 'R' || c = 'B' || c = 'N'

/-- The regex chain of `parseAlgebraicNotation`, in source order:
bare pawn destination; pawn capture; piece move; piece capture; piece move
with file / rank disambiguator; piece capture with file / rank
disambiguator.  Anything else is unrecognized. -/
def matchSANShape (n : List Char) : Option SANParts :=
  match n with
  | [a, r] =>
    if isFileChar a && isRankChar r then some ⟨'P', none, none, false, [a, r]⟩ else none
  | [p, a, r] =>
    if isPieceChar p && isFileChar a && isRankChar r then some ⟨p, none, none, false, [a, r]⟩
    else none
  | [c1, c2, c3, c4] =>
    if isFileChar c1 && c2 = 'x' && isFileChar c3 && isRankChar c4 then
      some ⟨'P', some c1, none, true, [c3, c4]⟩
    else if isPieceChar c1 && c2 = 'x' && isFileChar c3 && isRankChar c4 then
      some ⟨c1, none, none, true, [c3, c4]⟩
    else if isPieceChar c1 && isFileChar c2 && isFileChar c3 && isRankChar c4 then
      some ⟨c1, some c2, none, false, [c3, c4]⟩
    else if isPieceChar c1 && isRankChar c2 && isFileChar c3 && isRankChar c4 then
      some ⟨c1, none, some c2, false, [c3, c4]⟩
    else none
  | [c1, c2, c3, c4, c5] =>
    if isPieceChar c1 && isFileChar c2 && c3 = 'x' && isFileChar c4 && isRankChar c5 then
      some ⟨c1, some c2, none, true, [c4, c5]⟩
    else if isPieceChar c1 && isRankChar c2 && c3 = 'x' && isFileChar c4 && isRankChar c5 then
      some ⟨c1, none, some c2, true, [c4, c5]⟩
    else none
  | _ => none

/-- Does a piece match `targetPieceCode` = `` `${currentPlayer}${pieceType}` ``? -/
def pieceCodeMatches (player : Color) (pieceType : Char) (piece : Piece) : Bool :=
  decide (piece.color = player) && decide (typeChar piece.ptype = pieceType)

/-- The per-square body of the `findCandidatePieces` loop: piece-code match,
file/rank constraints, destination in `getValidMoves`, then the capture
semantics — for capture shapes the target must hold an opposing piece, or
(pawns only) be an empty square on the en-passant rank with an opposing
pawn on the passed square; for non-capture shapes the target must be
empty. -/
def candidateOK (g : GameState) (pieceType : Char) (toSquare : Square)
    (fromFile fromRank : Option Char) (isCapture : Bool) (square : Square) (piece : Piece) : Bool :=
  pieceCodeMatches g.currentPlayer pieceType piece &&
  (match fromFile with
    | some f => decide (square.head? = some f)
    | none => true) &&
  (match fromRank with
    | some r => decide (square[1]? = some r)
    | none => true) &&
  decide (toSquare ∈ getValidMoves g square) &&
  (if isCapture then
    match posGet g.position toSquare with
    | some target => decide (target.color ≠ g.currentPlayer)
    | none =>
      if pieceType = 'P' then
        (if toSquare[1]? = some (if g.currentPlayer = Color.w then '6' else '3') then
          match posGet g.position
              (renderOptChar toSquare.head? ++ [if g.currentPlayer = Color.w then '5' else '4']) with
          | some ep => decide (ep.color ≠ g.currentPlayer) && decide (ep.ptype = PType.P)
          | none => false
        else false)
      else false
  else (posGet g.position toSquare).isNone)

/-- `findCandidatePieces`: the qualifying squares, in iteration order. -/
def findCandidatePieces (g : GameState) (pieceType : Char) (toSquare : Square)
    (fromFile fromRank : Option Char) (isCapture : Bool) : List Square :=
  g.position.filterMap fun e =>
    if candidateOK g pieceType toSquare fromFile fromRank isCapture e.1 e.2 then some e.1
    else none

/-- `parseAlgebraicNotation`: strip trailing check/annotation glyphs and
trim; castling tokens resolve directly to the active colour's home-rank
king shift; otherwise match a pattern, collect candidates, and return the
first candidate with the destination (or `null`). -/
def parseSAN (g : GameState) (raw : List Char) : Option (Square × Square) :=
  if jsTrim (stripSANSuffix raw) = ['O', '-', 'O'] ∨ jsTrim (stripSANSuffix raw) = ['0', '-', '0'] then
    some (['e', if g.currentPlayer = Color.w then '1' else '8'],
          ['g', if g.currentPlayer = Color.w then '1' else '8'])
  else if jsTrim (stripSANSuffix raw) = ['O', '-', 'O', '-', 'O'] ∨
      jsTrim (stripSANSuffix raw) = ['0', '-', '0', '-', '0'] then
    some (['e', if g.currentPlayer = Color.w then '1' else '8'],
          ['c', if g.currentPlayer = Color.w then '1' else '8'])
  else
    match matchSANShape (jsTrim (stripSANSuffix raw)) with
    | none => none
    | some parts =>
      match findCandidatePieces g parts.pieceType parts.toSquare parts.fromFile parts.fromRank
          parts.isCapture with
      | [] => none
      | c :: _ => some (c, parts.toSquare)

/-! ## Association-list lemmas for the position object -/

theorem posGet_posSet_self (pos : ChessPosition) (k : Square) (v : Piece) :
    posGet (posSet pos k v) k = some v := by
  induction pos with
  | nil => simp [posGet, posSet]
  | cons e rest ih =>
    obtain ⟨ek, ev⟩ := e
    by_cases h : ek = k
    · simp [posGet, posSet, h]
    · simp [posGet, posSet, h, ih]

theorem posGet_posSet_ne (pos : ChessPosition) {k k' : Square} (v : Piece) (h : k' ≠ k) :
    posGet (posSet pos k v) k' = posGet pos k' := by
  induction pos with
  | nil => simp [posGet, posSet, Ne.symm h]
  | cons e rest ih =>
    obtain ⟨ek, ev⟩ := e
    by_cases he : ek = k
    · subst he
      simp [posSet, posGet, Ne.symm h]
    · by_cases he2 : ek = k'
      · simp [posSet, posGet, he, he2, h]
      · simp [posSet, posGet, he, he2, ih]

theorem posGet_posDel_self (pos : ChessPosition) (k : Square) :
    posGet (posDel pos k) k = none := by
  induction pos with
  | nil => simp [posGet, posDel]
  | cons e rest ih =>
    obtain ⟨ek, ev⟩ := e
    by_cases h : ek = k
    · simp [posDel, h, ih]
    · simp [posDel, posGet, h, ih]

theorem posGet_posDel_ne (pos : ChessPosition) {k k' : Square} (h : k' ≠ k) :
    posGet (posDel pos k) k' = posGet pos k' := by
  induction pos with
  | nil => simp [posDel]
  | cons e rest ih =>
    obtain ⟨ek, ev⟩ := e
    by_cases he : ek = k
    · subst he
      simp [posDel, posGet, Ne.symm h, ih]
    · by_cases he2 : ek = k'
      · simp [posDel, posGet, he, he2, h]
      · simp [posDel, posGet, he, he2, ih]

theorem mem_of_posGet_eq_some {pos : ChessPosition} {k : Square} {v : Piece}
    (h : posGet pos k = some v) : (k, v) ∈ pos := by
  induction pos with
  | nil => simp [posGet] at h
  | cons e rest ih =>
    obtain ⟨ek, ev⟩ := e
    by_cases he : ek = k
    · simp only [posGet, if_pos he] at h
      obtain rfl : ev = v := by simpa using h
      exact he ▸ List.mem_cons_self _ rest
    · simp only [posGet, if_neg he] at h
      exact List.mem_cons_of_mem _ (ih h)

theorem posGet_eq_some_of_mem {pos : ChessPosition} {k : Square} {v : Piece}
    (hnd : (pos.map Prod.fst).Nodup) (h : (k, v) ∈ pos) : posGet pos k = some v := by
  induction pos with
  | nil => simp at h
  | cons e rest ih =>
    rcases List.mem_cons.mp h with h1 | h1
    · subst h1
      simp [posGet]
    · have hne : e.1 ≠ k := by
        intro hc
        have : e.1 ∈ rest.map Prod.fst := hc ▸ List.mem_map_of_mem Prod.fst h1
        exact (List.nodup_cons.mp hnd).1 this
      simp only [posGet, if_neg hne]
      exact ih (List.nodup_cons.mp hnd).2 h1

/-! ## Well-formedness of positions -/

/-- Every key the class ever stores is a well-formed square, and object
keys are unique; both hold for every state constructible through the
class's interface. -/
def WFPos (pos : ChessPosition) : Prop :=
  (∀ e ∈ pos, isValidSquare e.1 = true) ∧ (pos.map Prod.fst).Nodup

theorem keys_posSet_of_mem {pos : ChessPosition} {k : Square} (v : Piece)
    (h : k ∈ pos.map Prod.fst) : (posSet pos k v).map Prod.fst = pos.map Prod.fst := by
  induction pos with
  | nil => simp at h
  | cons e rest ih =>
    by_cases he : e.1 = k
    · simp [posSet, he]
    · have : k ∈ rest.map Prod.fst := by
        rcases List.mem_map.mp h with ⟨x, hx, hk⟩
        rcases List.mem_cons.mp hx with h1 | h1
        · exact absurd (h1 ▸ hk) he
        · exact hk ▸ List.mem_map_of_mem Prod.fst h1
      simp [posSet, he, ih this]

theorem keys_posSet_of_not_mem {pos : ChessPosition} {k : Square} (v : Piece)
    (h : k ∉ pos.map Prod.fst) : (posSet pos k v).map Prod.fst = pos.map Prod.fst ++ [k] := by
  induction pos with
  | nil => simp [posSet]
  | cons e rest ih =>
    have he : e.1 ≠ k := by
      intro hc
      exact h (hc ▸ List.mem_map_of_mem Prod.fst (List.mem_cons_self e rest))
    have hr : k ∉ rest.map Prod.fst := fun hc => h (List.mem_cons_of_mem _ hc)
    simp [posSet, he, ih hr]

theorem WFPos_posSet {pos : ChessPosition} {k : Square} {v : Piece}
    (h : WFPos pos) (hk : isValidSquare k = true) : WFPos (posSet pos k v) := by
  obtain ⟨hv, hnd⟩ := h
  constructor
  · intro e he
    induction pos with
    | nil => simp [posSet] at he; simp [he, hk]
    | cons e0 rest ih =>
      by_cases h0 : e0.1 = k
      · simp only [posSet, if_pos h0] at he
        rcases List.mem_cons.mp he with h1 | h1
        · simp [h1, h0, hk]
        · exact hv e (List.mem_cons_of_mem _ h1)
      · simp only [posSet, if_neg h0] at he
        rcases List.mem_cons.mp he with h1 | h1
        · exact hv e (h1 ▸ List.mem_cons_self e0 rest)
        · exact ih (fun e2 he2 => hv e2 (List.mem_cons_of_mem _ he2))
            (List.nodup_cons.mp hnd).2 h1
  · by_cases hm : k ∈ pos.map Prod.fst
    · rw [keys_posSet_of_mem v hm]; exact hnd
    · rw [keys_posSet_of_not_mem v hm]
      refine List.Nodup.append hnd (List.nodup_singleton k) ?_
      intro a ha hb
      rw [List.mem_singleton] at hb
      exact hm (hb ▸ ha)

theorem posDel_subset {pos : ChessPosition} {k : Square} : posDel pos k ⊆ pos := by
  induction pos with
  | nil => simp [posDel]
  | cons e rest ih =>
    by_cases he : e.1 = k
    · simp only [posDel, if_pos he]
      exact fun x hx => List.mem_cons_of_mem _ (ih hx)
    · simp only [posDel, if_neg he]
      intro x hx
      rcases List.mem_cons.mp hx with h1 | h1
      · exact h1 ▸ List.mem_cons_self e rest
      · exact List.mem_cons_of_mem _ (ih h1)

theorem keys_posDel_sublist (pos : ChessPosition) (k : Square) :
    ((posDel pos k).map Prod.fst).Sublist (pos.map Prod.fst) := by
  induction pos with
  | nil => simp [posDel]
  | cons e rest ih =>
    by_cases he : e.1 = k
    · simp only [posDel, if_pos he, List.map_cons]
      exact ih.cons e.1
    · simp only [posDel, if_neg he, List.map_cons]
      exact ih.cons₂ e.1

theorem WFPos_posDel {pos : ChessPosition} (k : Square) (h : WFPos pos) : WFPos (posDel pos k) :=
  ⟨fun e he => h.1 e (posDel_subset he), (keys_posDel_sublist pos k).nodup h.2⟩

/-! ## The sixty-four well-formed squares -/

theorem andE {a b : Bool} (h : (a && b) = true) : a = true ∧ b = true := by
  simp_all

/-- The board files, in order. -/
def filesList : List Char := ['a', 'b', 'c', 'd', 'e', 'f', 'g', 'h']

/-- The board ranks, in order. -/
def ranksList : List Char := ['1', '2', '3', '4', '5', '6', '7', '8']

/-- All well-formed squares, used to decide per-square geometric facts. -/
def validSquaresList : List Square :=
  filesList.flatMap fun f => ranksList.map fun r => [f, r]

theorem mem_filesList_of_isFileChar {c : Char} (h : isFileChar c = true) : c ∈ filesList := by
  have hb : 97 ≤ c.toNat ∧ c.toNat ≤ 104 := by simpa [isFileChar] using h
  have hd : c.toNat = 97 ∨ c.toNat = 98 ∨ c.toNat = 99 ∨ c.toNat = 100 ∨ c.toNat = 101 ∨
      c.toNat = 102 ∨ c.toNat = 103 ∨ c.toNat = 104 := by omega
  rcases hd with h1 | h1 | h1 | h1 | h1 | h1 | h1 | h1 <;> rw [← Char.ofNat_toNat c, h1] <;> decide

theorem mem_ranksList_of_isRankChar {c : Char} (h : isRankChar c = true) : c ∈ ranksList := by
  have hb : 49 ≤ c.toNat ∧ c.toNat ≤ 56 := by simpa [isRankChar] using h
  have hd : c.toNat = 49 ∨ c.toNat = 50 ∨ c.toNat = 51 ∨ c.toNat = 52 ∨ c.toNat = 53 ∨
      c.toNat = 54 ∨ c.toNat = 55 ∨ c.toNat = 56 := by omega
  rcases hd with h1 | h1 | h1 | h1 | h1 | h1 | h1 | h1 <;> rw [← Char.ofNat_toNat c, h1] <;> decide

theorem isValidSquare_shape {s : Square} (h : isValidSquare s = true) :
    ∃ a b, s = [a, b] ∧ isFileChar a = true ∧ isRankChar b = true := by
  cases s with
  | nil => simp [isValidSquare] at h
  | cons a t =>
    cases t with
    | nil => simp [isValidSquare] at h
    | cons b t2 =>
      cases t2 with
      | nil =>
        have h2 : isFileChar a = true ∧ isRankChar b = true := by
          simpa [isValidSquare] using h
        exact ⟨a, b, rfl, h2.1, h2.2⟩
      | cons c t3 => simp [isValidSquare] at h

theorem mem_validSquaresList {s : Square} (h : isValidSquare s = true) :
    s ∈ validSquaresList := by
  obtain ⟨a, b, rfl, ha, hb⟩ := isValidSquare_shape h
  simp only [validSquaresList, List.mem_flatMap, List.mem_map]
  exact ⟨a, mem_filesList_of_isFileChar ha, b, mem_ranksList_of_isRankChar hb, rfl⟩

/-! ## Geometric facts about the move generators -/

/-- The squares walked over by `getLinearMoves` regardless of occupancy. -/
def raySquares : Nat → Int → Option Int → Int → Int → List Square
  | 0, _, _, _, _ => []
  | fuel + 1, nfi, nri, dx, dy =>
    if inBoard nfi && inBoardOpt nri then
      ([fileCharAt nfi] ++ renderNum (optAdd nri 1)) :: raySquares fuel (nfi + dx) (optAdd nri dy) dx dy
    else []

theorem getLinearMovesAux_subset (pos : ChessPosition) (c : Color) (fuel : Nat)
    (nfi : Int) (nri : Option Int) (dx dy : Int) :
    getLinearMovesAux pos c fuel nfi nri dx dy ⊆ raySquares fuel nfi nri dx dy := by
  induction fuel generalizing nfi nri with
  | zero => simp [getLinearMovesAux, raySquares]
  | succ n ih =>
    by_cases hb : (inBoard nfi && inBoardOpt nri) = true
    · simp only [getLinearMovesAux, raySquares, hb, if_true]
      cases hp : posGet pos ([fileCharAt nfi] ++ renderNum (optAdd nri 1)) with
      | none =>
        intro x hx
        rcases List.mem_cons.mp hx with h1 | h1
        · exact h1 ▸ List.mem_cons_self _ _
        · exact List.mem_cons_of_mem _ (ih (nfi + dx) (optAdd nri dy) h1)
      | some p =>
        change (if p.color ≠ c then [[fileCharAt nfi] ++ renderNum (optAdd nri 1)] else []) ⊆ _
        by_cases hc : p.color ≠ c
        · rw [if_pos hc]
          intro x hx
          rcases List.mem_singleton.mp hx with h1
          exact h1 ▸ List.mem_cons_self _ _
        · rw [if_neg hc]
          intro x hx
          simp at hx
    · simp [getLinearMovesAux, raySquares, hb]

/-- The four rook direction vectors, in source order. -/
def rookDirs : List (Int × Int) := [(0, 1), (0, -1), (1, 0), (-1, 0)]

/-- The four bishop direction vectors, in source order. -/
def bishopDirs : List (Int × Int) := [(1, 1), (1, -1), (-1, 1), (-1, -1)]

theorem mem_getRookMoves {pos : ChessPosition} {s t : Square} (h : t ∈ getRookMoves pos s) :
    ∃ d ∈ rookDirs,
      t ∈ raySquares 16 (fileIndexOf s.head? + d.1) (optAdd (rankIndexOf s) d.2) d.1 d.2 := by
  simp only [getRookMoves, List.mem_append] at h
  rcases h with ((h | h) | h) | h
  · exact ⟨(0, 1), by simp [rookDirs], getLinearMovesAux_subset _ _ _ _ _ _ _ h⟩
  · exact ⟨(0, -1), by simp [rookDirs], getLinearMovesAux_subset _ _ _ _ _ _ _ h⟩
  · exact ⟨(1, 0), by simp [rookDirs], getLinearMovesAux_subset _ _ _ _ _ _ _ h⟩
  · exact ⟨(-1, 0), by simp [rookDirs], getLinearMovesAux_subset _ _ _ _ _ _ _ h⟩

theorem mem_getBishopMoves {pos : ChessPosition} {s t : Square} (h : t ∈ getBishopMoves pos s) :
    ∃ d ∈ bishopDirs,
      t ∈ raySquares 16 (fileIndexOf s.head? + d.1) (optAdd (rankIndexOf s) d.2) d.1 d.2 := by
  simp only [getBishopMoves, List.mem_append] at h
  rcases h with ((h | h) | h) | h
  · exact ⟨(1, 1), by simp [bishopDirs], getLinearMovesAux_subset _ _ _ _ _ _ _ h⟩
  · exact ⟨(1, -1), by simp [bishopDirs], getLinearMovesAux_subset _ _ _ _ _ _ _ h⟩
  · exact ⟨(-1, 1), by simp [bishopDirs], getLinearMovesAux_subset _ _ _ _ _ _ _ h⟩
  · exact ⟨(-1, -1), by simp [bishopDirs], getLinearMovesAux_subset _ _ _ _ _ _ _ h⟩

/-- Decomposition of pawn-move membership into the source's three pushes. -/
theorem mem_getPawnMoves {pos : ChessPosition} {s : Square} {c : Color} {t : Square}
    (h : t ∈ getPawnMoves pos s c) :
    (t = pawnOneForward s c ∧ posGet pos t = none) ∨
    (t = pawnTwoForward s c ∧ rankIndexOf s = some (pawnStartRank c) ∧
      posGet pos (pawnOneForward s c) = none ∧ posGet pos t = none) ∨
    (∃ off ∈ ([-1, 1] : List Int), t = pawnCaptureSquare s c off ∧
      inBoard (fileIndexOf s.head? + off) = true ∧
      ∃ tp, posGet pos t = some tp ∧ tp.color ≠ c) := by
  simp only [getPawnMoves, List.mem_append] at h
  rcases h with h | h
  · by_cases h1 : (isValidSquare (pawnOneForward s c) &&
        (posGet pos (pawnOneForward s c)).isNone) = true
    · rw [if_pos h1] at h
      rcases List.mem_cons.mp h with h2 | h2
      · left
        refine ⟨h2, ?_⟩
        rw [h2]
        exact Option.isNone_iff_eq_none.mp (andE h1).2
      · by_cases h3 : rankIndexOf s = some (pawnStartRank c)
        · rw [if_pos h3] at h2
          by_cases h4 : (isValidSquare (pawnTwoForward s c) &&
              (posGet pos (pawnTwoForward s c)).isNone) = true
          · rw [if_pos h4] at h2
            rcases List.mem_singleton.mp h2 with h5
            right; left
            exact ⟨h5, h3, Option.isNone_iff_eq_none.mp (andE h1).2,
              h5 ▸ Option.isNone_iff_eq_none.mp (andE h4).2⟩
          · rw [if_neg h4] at h2; simp at h2
        · rw [if_neg h3] at h2; simp at h2
    · rw [if_neg h1] at h; simp at h
  · right; right
    rcases List.mem_filterMap.mp h with ⟨off, hoff, hval⟩
    by_cases hb : inBoard (fileIndexOf s.head? + off) = true
    · rw [if_pos hb] at hval
      cases hp : posGet pos (pawnCaptureSquare s c off) with
      | none => rw [hp] at hval; simp at hval
      | some target =>
        rw [hp] at hval
        change (if target.color ≠ c then some (pawnCaptureSquare s c off) else none) = some t
          at hval
        by_cases hc : target.color ≠ c
        · rw [if_pos hc] at hval
          obtain rfl : pawnCaptureSquare s c off = t := by simpa using hval
          exact ⟨off, hoff, rfl, hb, target, hp, hc⟩
        · rw [if_neg hc] at hval; simp at hval
    · rw [if_neg hb] at hval; simp at hval

/-- Decomposition of knight-move membership. -/
theorem mem_getKnightMoves {s t : Square} (h : t ∈ getKnightMoves s) :
    ∃ d ∈ knightOffsets,
      inBoard (fileIndexOf s.head? + d.1) = true ∧
      inBoardOpt (optAdd (rankIndexOf s) d.2) = true ∧
      t = [fileCharAt (fileIndexOf s.head? + d.1)] ++
        renderNum (optAdd (optAdd (rankIndexOf s) d.2) 1) := by
  rcases List.mem_filterMap.mp h with ⟨d, hd, hval⟩
  by_cases hb : (inBoard (fileIndexOf s.head? + d.1) && inBoardOpt (optAdd (rankIndexOf s) d.2)) = true
  · rw [if_pos hb] at hval
    obtain ⟨hb1, hb2⟩ := andE hb
    exact ⟨d, hd, hb1, hb2, by simpa using hval.symm⟩
  · rw [if_neg hb] at hval; simp at hval

/-- Decomposition of king-move membership. -/
theorem mem_getKingMoves {s t : Square} (h : t ∈ getKingMoves s) :
    ∃ d ∈ kingOffsets,
      inBoard (fileIndexOf s.head? + d.1) = true ∧
      inBoardOpt (optAdd (rankIndexOf s) d.2) = true ∧
      t = [fileCharAt (fileIndexOf s.head? + d.1)] ++
        renderNum (optAdd (optAdd (rankIndexOf s) d.2) 1) := by
  rcases List.mem_filterMap.mp h with ⟨d, hd, hval⟩
  by_cases hb : (inBoard (fileIndexOf s.head? + d.1) && inBoardOpt (optAdd (rankIndexOf s) d.2)) = true
  · rw [if_pos hb] at hval
    obtain ⟨hb1, hb2⟩ := andE hb
    exact ⟨d, hd, hb1, hb2, by simpa using hval.symm⟩
  · rw [if_neg hb] at hval; simp at hval

/-- A king move never changes the origin file by two: decided over the
sixty-four squares.  This is why the castling branch of `makeMove` is
unreachable through the public interface. -/
theorem king_fileDiff_ne_two :
    ∀ s ∈ validSquaresList, ∀ t ∈ getKingMoves s, fileDiffIsTwo s t = false := by decide

/-! ## Structure of `getValidMoves` -/

theorem mem_getValidMoves_cases {g : GameState} {s t : Square} (h : t ∈ getValidMoves g s) :
    ∃ pc, posGet g.position s = some pc ∧ pc.color = g.currentPlayer ∧
      isValidSquare t = true ∧ canMoveTo g.position s t = true ∧
      ((pc.ptype = PType.P ∧ t ∈ getPawnMoves g.position s pc.color) ∨
       (pc.ptype = PType.R ∧ t ∈ getRookMoves g.position s) ∨
       (pc.ptype = PType.N ∧ t ∈ getKnightMoves s) ∨
       (pc.ptype = PType.B ∧ t ∈ getBishopMoves g.position s) ∨
       (pc.ptype = PType.Q ∧ t ∈ getQueenMoves g.position s) ∨
       (pc.ptype = PType.K ∧ t ∈ getKingMoves s)) := by
  cases hg : posGet g.position s with
  | none => simp only [getValidMoves, hg] at h; simp at h
  | some pc =>
    simp only [getValidMoves, hg] at h
    by_cases hc : pc.color = g.currentPlayer
    · rw [if_neg (not_not_intro hc)] at h
      rcases List.mem_filter.mp h with ⟨hmem, hfil⟩
      obtain ⟨hv, hcan⟩ := andE hfil
      refine ⟨pc, rfl, hc, hv, hcan, ?_⟩
      obtain ⟨c0, t0⟩ := pc
      cases t0 with
      | P => exact Or.inl ⟨rfl, hmem⟩
      | R => exact Or.inr (Or.inl ⟨rfl, hmem⟩)
      | N => exact Or.inr (Or.inr (Or.inl ⟨rfl, hmem⟩))
      | B => exact Or.inr (Or.inr (Or.inr (Or.inl ⟨rfl, hmem⟩)))
      | Q => exact Or.inr (Or.inr (Or.inr (Or.inr (Or.inl ⟨rfl, hmem⟩))))
      | K => exact Or.inr (Or.inr (Or.inr (Or.inr (Or.inr ⟨rfl, hmem⟩))))
    · simp [hc] at h

theorem mem_getValidMoves_isValid {g : GameState} {s t : Square}
    (h : t ∈ getValidMoves g s) : isValidSquare t = true :=
  (mem_getValidMoves_cases h).choose_spec.2.2.1

/-- No piece ever "moves" to its own square: decided over the squares. -/
theorem self_not_target :
    ∀ s ∈ validSquaresList,
      (∀ c ∈ [Color.w, Color.b],
        s ∉ [pawnOneForward s c, pawnTwoForward s c,
          pawnCaptureSquare s c (-1), pawnCaptureSquare s c 1]) ∧
      s ∉ getKnightMoves s ∧ s ∉ getKingMoves s ∧
      (∀ d ∈ rookDirs ++ bishopDirs,
        s ∉ raySquares 16 (fileIndexOf s.head? + d.1) (optAdd (rankIndexOf s) d.2) d.1 d.2) := by
  decide

theorem mem_getValidMoves_ne_self {g : GameState} {s t : Square}
    (h : t ∈ getValidMoves g s) : t ≠ s := by
  intro he
  subst he
  obtain ⟨pc, hg, hc, hv, hcan, hmem⟩ := mem_getValidMoves_cases h
  by_cases hs : isValidSquare t = true
  · have hsl := mem_validSquaresList hs
    obtain ⟨hpawn, hknight, hking, hray⟩ := self_not_target t hsl
    rcases hmem with ⟨_, hm⟩ | ⟨_, hm⟩ | ⟨_, hm⟩ | ⟨_, hm⟩ | ⟨_, hm⟩ | ⟨_, hm⟩
    · have hcmem : pc.color ∈ [Color.w, Color.b] := by cases pc.color <;> simp
      rcases mem_getPawnMoves hm with ⟨h1, _⟩ | ⟨h1, _, _, _⟩ | ⟨off, hoff, h1, _⟩
      · exact hpawn pc.color hcmem (by simp [h1.symm])
      · exact hpawn pc.color hcmem (by simp [h1.symm])
      · rcases List.mem_cons.mp hoff with h2 | h2
        · subst h2
          exact hpawn pc.color hcmem (by simp [h1.symm])
        · rcases List.mem_singleton.mp h2 with h3
          subst h3
          exact hpawn pc.color hcmem (by simp [h1.symm])
    · obtain ⟨d, hd, h2⟩ := mem_getRookMoves hm
      exact hray d (List.mem_append.mpr (Or.inl hd)) h2
    · exact hknight hm
    · obtain ⟨d, hd, h2⟩ := mem_getBishopMoves hm
      exact hray d (List.mem_append.mpr (Or.inr hd)) h2
    · rcases List.mem_append.mp hm with h1 | h1
      · obtain ⟨d, hd, h2⟩ := mem_getRookMoves h1
        exact hray d (List.mem_append.mpr (Or.inl hd)) h2
      · obtain ⟨d, hd, h2⟩ := mem_getBishopMoves h1
        exact hray d (List.mem_append.mpr (Or.inr hd)) h2
    · exact hking hm
  · exact hs hv

/-! ## Normal forms of `makeMove` -/

theorem makeMove_fail_empty {g : GameState} {f t : Square}
    (h : posGet g.position f = none) : makeMove g f t = (false, g) := by
  simp [makeMove, h]

theorem makeMove_fail_color {g : GameState} {f t : Square} {pc : Piece}
    (h : posGet g.position f = some pc) (hc : pc.color ≠ g.currentPlayer) :
    makeMove g f t = (false, g) := by
  simp [makeMove, h, hc]

theorem makeMove_fail_mem {g : GameState} {f t : Square} {pc : Piece}
    (h : posGet g.position f = some pc) (hm : t ∉ getValidMoves g f) :
    makeMove g f t = (false, g) := by
  by_cases hc : pc.color = g.currentPlayer
  · simp [makeMove, h, hc, hm]
  · simp [makeMove, h, hc]

theorem makeMove_success_shape {g : GameState} {f t : Square} {g2 : GameState}
    (h : makeMove g f t = (true, g2)) :
    ∃ pc, posGet g.position f = some pc ∧ pc.color = g.currentPlayer ∧
      t ∈ getValidMoves g f ∧
      g2 = { position :=
               posDel
                 (posSet
                   (if pc.ptype = PType.K ∧ fileDiffIsTwo f t then
                     castleRookAdjust g.position f t
                   else g.position)
                   t pc)
                 f
             currentPlayer := flipColor g.currentPlayer
             moveHistory := g.moveHistory ++
               [{ fromSq := f, toSq := t, piece := pc,
                  captured := posGet g.position t,
                  san :=
                    if pc.ptype = PType.K ∧ fileDiffIsTwo f t then
                      (if strLt f t then ['O', '-', 'O'] else ['O', '-', 'O', '-', 'O'])
                    else generateMoveSAN g f t pc (posGet g.position t) }] } := by
  cases hg : posGet g.position f with
  | none => rw [makeMove_fail_empty hg] at h; simp at h
  | some pc =>
    refine ⟨pc, rfl, ?_⟩
    by_cases hc : pc.color = g.currentPlayer
    · by_cases hm : t ∈ getValidMoves g f
      · refine ⟨hc, hm, ?_⟩
        simp only [makeMove, hg, hc, ne_eq, not_true_eq_false, if_false, hm,
          not_true_eq_false, if_false] at h
        simp at h
        exact h.symm
      · rw [makeMove_fail_mem hg hm] at h; simp at h
    · rw [makeMove_fail_color hg hc] at h; simp at h

theorem makeMove_no_castle {g : GameState} {f t : Square} {pc : Piece}
    (hwf : WFPos g.position) (hg : posGet g.position f = some pc)
    (hm : t ∈ getValidMoves g f) :
    ¬(pc.ptype = PType.K ∧ fileDiffIsTwo f t = true) := by
  rintro ⟨hk, hd⟩
  obtain ⟨pc2, hg2, hc2, hv2, hcan2, hcases⟩ := mem_getValidMoves_cases hm
  obtain rfl : pc = pc2 := by rw [hg] at hg2; exact Option.some_inj.mp hg2
  have hfv : isValidSquare f = true := hwf.1 (f, pc) (mem_of_posGet_eq_some hg)
  rcases hcases with ⟨he, _⟩ | ⟨he, _⟩ | ⟨he, _⟩ | ⟨he, _⟩ | ⟨he, _⟩ | ⟨_, hmk⟩
  · rw [hk] at he; cases he
  · rw [hk] at he; cases he
  · rw [hk] at he; cases he
  · rw [hk] at he; cases he
  · rw [hk] at he; cases he
  · have := king_fileDiff_ne_two f (mem_validSquaresList hfv) t hmk
    rw [this] at hd
    cases hd

/-- On a well-formed position a successful `makeMove` is exactly: generate
SAN, write the piece to the destination, delete the origin, append the
history record and flip the turn — the castling branch cannot fire. -/
theorem makeMove_success_shape_wf {g : GameState} {f t : Square} {g2 : GameState}
    (hwf : WFPos g.position) (h : makeMove g f t = (true, g2)) :
    ∃ pc, posGet g.position f = some pc ∧ pc.color = g.currentPlayer ∧
      t ∈ getValidMoves g f ∧
      g2 = { position := posDel (posSet g.position t pc) f
             currentPlayer := flipColor g.currentPlayer
             moveHistory := g.moveHistory ++
               [{ fromSq := f, toSq := t, piece := pc,
                  captured := posGet g.position t,
                  san := generateMoveSAN g f t pc (posGet g.position t) }] } := by
  obtain ⟨pc, hg, hc, hm, hshape⟩ := makeMove_success_shape h
  have hnc := makeMove_no_castle hwf hg hm
  refine ⟨pc, hg, hc, hm, ?_⟩
  rw [hshape]
  rw [if_neg hnc, if_neg hnc]

theorem WFPos_makeMove {g : GameState} {f t : Square} {g2 : GameState}
    (hwf : WFPos g.position) (h : makeMove g f t = (true, g2)) : WFPos g2.position := by
  obtain ⟨pc, hg, hc, hm, rfl⟩ := makeMove_success_shape_wf hwf h
  exact WFPos_posDel f (WFPos_posSet hwf (mem_getValidMoves_isValid hm))

/-! ## Named scenario states -/

/-- The game after `apply("e2","e4")` from the start. -/
def afterE4 : GameState := (makeMove initialGame ['e','2'] ['e','4']).2

/-- The game after `1. e4 e5`. -/
def afterE4E5 : GameState := (makeMove afterE4 ['e','7'] ['e','5']).2

/-- White knights on b1 and d2, White to move (the claim C6 scenario; a
knight on d2 cannot in fact reach c3). -/
def knightsB1D2 : GameState :=
  { position := [(['b','1'], ⟨Color.w, PType.N⟩), (['d','2'], ⟨Color.w, PType.N⟩)],
    currentPlayer := Color.w, moveHistory := [] }

/-- White knights on b1 and d5, White to move; both knights reach c3. -/
def knightsB1D5 : GameState :=
  { position := [(['b','1'], ⟨Color.w, PType.N⟩), (['d','5'], ⟨Color.w, PType.N⟩)],
    currentPlayer := Color.w, moveHistory := [] }

/-- White pawn on e5, black pawn on d5, d6 empty, White to move — the
en-passant pattern exhibited by claim C3. -/
def enPassantState : GameState :=
  { position := [(['e','5'], ⟨Color.w, PType.P⟩), (['d','5'], ⟨Color.b, PType.P⟩)],
    currentPlayer := Color.w, moveHistory := [] }

/-! ## Claim theorems (first batch) -/

/-- C1 (code_bug evidence): from the standard starting position the claim
says `apply("e1","g1")` succeeds with SAN `O-O`; in the code the king
move generator never offers a two-file destination, so every castling
`apply` — White king-side and queen-side, and Black from e8 after 1.e4 —
returns `false` and mutates nothing. -/
theorem castlingApplyFails :
    makeMove initialGame ['e','1'] ['g','1'] = (false, initialGame) ∧
    makeMove initialGame ['e','1'] ['c','1'] = (false, initialGame) ∧
    makeMove afterE4 ['e','8'] ['g','8'] = (false, afterE4) ∧
    makeMove afterE4 ['e','8'] ['c','8'] = (false, afterE4) := by decide

/-- C3 (code_bug evidence): in the exhibited en-passant pattern (white pawn
e5, black pawn d5, d6 empty, White to move) `parse("exd6")` returns
`null`: the candidate filter requires `d6 ∈ validMoves(e5)` before the
en-passant branch is consulted, and the generator never emits the empty
diagonal square. -/
theorem enPassantParseFails :
    getPiece enPassantState ['d','6'] = none ∧
    getPiece enPassantState ['d','5'] = some ⟨Color.b, PType.P⟩ ∧
    getPiece enPassantState ['e','5'] = some ⟨Color.w, PType.P⟩ ∧
    parseSAN enPassantState ['e','x','d','6'] = none := by decide

/-- C4: any failed validation — empty origin, non-active colour, or a
destination outside `validMoves` — makes `apply` return `false` with the
entire state (every square, the turn flag, the history) unchanged. -/
theorem applyFailureAtomic (g : GameState) (f t : Square)
    (h : getPiece g f = none ∨
      (∃ pc, getPiece g f = some pc ∧ pc.color ≠ g.currentPlayer) ∨
      t ∉ getValidMoves g f) :
    makeMove g f t = (false, g) := by
  rcases h with h | ⟨pc, hg, hc⟩ | h
  · exact makeMove_fail_empty h
  · exact makeMove_fail_color hg hc
  · cases hg : posGet g.position f with
    | none => exact makeMove_fail_empty hg
    | some pc => exact makeMove_fail_mem hg h

theorem applyFailureAtomic_witness :
    makeMove initialGame ['e','2'] ['e','5'] = (false, initialGame) :=
  applyFailureAtomic initialGame ['e','2'] ['e','5'] (Or.inr (Or.inr (by decide)))

/-- C5: every successful `apply` flips the side to move and lengthens the
history by exactly one, so turns alternate and the history length counts
the successful applies. -/
theorem applyFlipsTurnAndAppends (g : GameState) (f t : Square) (g2 : GameState)
    (h : makeMove g f t = (true, g2)) :
    g2.currentPlayer = flipColor g.currentPlayer ∧
    g2.moveHistory.length = g.moveHistory.length + 1 := by
  obtain ⟨pc, hg, hc, hm, rfl⟩ := makeMove_success_shape h
  constructor
  · rfl
  · simp

theorem applyFlipsTurnAndAppends_witness :
    afterE4.currentPlayer = flipColor initialGame.currentPlayer ∧
    afterE4.moveHistory.length = initialGame.moveHistory.length + 1 :=
  applyFlipsTurnAndAppends initialGame ['e','2'] ['e','4'] afterE4 (by decide)

/-- C6 (counterexample): with white knights on b1 and d2, moving the b1
knight to c3 yields SAN `"Nc3"`, not `"Nbc3"` — a d2 knight cannot reach
c3, so the ambiguity resolver finds nothing and no disambiguator is
appended. -/
theorem knightDisambigCounterexample :
    (makeMove knightsB1D2 ['b','1'] ['c','3']).1 = true ∧
    getLastMoveSAN (makeMove knightsB1D2 ['b','1'] ['c','3']).2 = ['N','c','3'] ∧
    ['c','3'] ∉ getValidMoves knightsB1D2 ['d','2'] ∧
    getLastMoveSAN (makeMove knightsB1D2 ['b','1'] ['c','3']).2 ≠ ['N','b','c','3'] := by decide

/-- C6 (amended): with white knights on b1 and d5 — both able to reach
c3 — the ambiguity resolver reports d5, d5 does not share b1's file, and
the move b1→c3 is rendered with the origin-file disambiguator: `"Nbc3"`. -/
theorem knightDisambigAmended :
    ['c','3'] ∈ getValidMoves knightsB1D5 ['b','1'] ∧
    ['c','3'] ∈ getValidMoves knightsB1D5 ['d','5'] ∧
    findAmbiguousMoves knightsB1D5 ['b','1'] ['c','3'] ⟨Color.w, PType.N⟩ = [['d','5']] ∧
    (makeMove knightsB1D5 ['b','1'] ['c','3']).1 = true ∧
    getLastMoveSAN (makeMove knightsB1D5 ['b','1'] ['c','3']).2 = ['N','b','c','3'] := by decide

/-- C8: the opening scenario — `apply("e2","e4")` succeeds with SAN `e4`,
then `apply("e7","e5")` with `e5`, then `apply("g1","f3")` with `Nf3`
(no disambiguator: the b1 knight cannot reach f3). -/
theorem openingScenario :
    (makeMove initialGame ['e','2'] ['e','4']).1 = true ∧
    getLastMoveSAN afterE4 = ['e','4'] ∧
    (makeMove afterE4 ['e','7'] ['e','5']).1 = true ∧
    getLastMoveSAN afterE4E5 = ['e','5'] ∧
    (makeMove afterE4E5 ['g','1'] ['f','3']).1 = true ∧
    getLastMoveSAN (makeMove afterE4E5 ['g','1'] ['f','3']).2 = ['N','f','3'] ∧
    ['f','3'] ∉ getValidMoves afterE4E5 ['b','1'] := by decide

/-- C9: on a well-formed position (as every state built through the class
interface is), a successful `apply(from,to)` changes no square other than
`from` and `to`: the castling branch — the only code that would touch a
third square — is unreachable, king valid moves never being two files
away. -/
theorem applyFrameThirdSquares (g : GameState) (f t sq : Square) (g2 : GameState)
    (hwf : WFPos g.position) (h : makeMove g f t = (true, g2))
    (h1 : sq ≠ f) (h2 : sq ≠ t) : getPiece g2 sq = getPiece g sq := by
  obtain ⟨pc, hg, hc, hm, rfl⟩ := makeMove_success_shape_wf hwf h
  show posGet (posDel (posSet g.position t pc) f) sq = posGet g.position sq
  rw [posGet_posDel_ne _ h1, posGet_posSet_ne _ _ h2]

theorem applyFrameThirdSquares_witness :
    getPiece afterE4 ['a','7'] = getPiece initialGame ['a','7'] :=
  applyFrameThirdSquares initialGame ['e','2'] ['e','4'] ['a','7'] afterE4
    (by constructor
        · decide
        · decide)
    (by decide) (by decide) (by decide)

theorem mem_fullSquare_chars {c ff fr : Char} (h : c ∈ ([ff, fr] : List Char)) :
    c = ff ∨ c = fr := by
  rcases List.mem_cons.mp h with h1 | h1
  · exact Or.inl h1
  · exact Or.inr (List.mem_singleton.mp h1)

/-- Every character of a generated SAN string is a file letter, a rank
digit, an `x`, or a piece letter (in particular never `=`: the codec has
no promotion suffix). -/
theorem generateMoveSAN_chars {g : GameState} {f t : Square} {pc : Piece} {cap : Option Piece}
    (hf : isValidSquare f = true) (ht : isValidSquare t = true) :
    ∀ c ∈ generateMoveSAN g f t pc cap,
      isFileChar c = true ∨ isRankChar c = true ∨ c = 'x' ∨ isPieceChar c = true := by
  obtain ⟨ff, fr, rfl, hff, hfr⟩ := isValidSquare_shape hf
  obtain ⟨tf, tr, rfl, htf, htr⟩ := isValidSquare_shape ht
  intro c hc
  obtain ⟨c0, t0⟩ := pc
  cases t0
  case P =>
    simp only [generateMoveSAN] at hc
    split at hc
    · simp only [renderOptChar, List.head?, List.cons_append, List.nil_append,
        List.mem_cons, List.mem_singleton, List.not_mem_nil, or_false] at hc
      rcases hc with rfl | rfl | rfl | rfl
      · exact Or.inl hff
      · exact Or.inr (Or.inr (Or.inl rfl))
      · exact Or.inl htf
      · exact Or.inr (Or.inl htr)
    · rcases mem_fullSquare_chars hc with rfl | rfl
      · exact Or.inl htf
      · exact Or.inr (Or.inl htr)
  all_goals
    simp only [generateMoveSAN, List.append_assoc, List.cons_append, List.nil_append,
      List.mem_cons, List.mem_append] at hc
    rcases hc with rfl | hc
    · exact Or.inr (Or.inr (Or.inr (by decide)))
    rcases hc with hc | hc
    · split at hc
      · split at hc
        · simp only [renderOptChar, List.head?] at hc
          exact Or.inl (List.mem_singleton.mp hc ▸ hff)
        · split at hc
          · simp only [renderOptChar, List.getElem?_cons_succ, List.getElem?_cons_zero] at hc
            exact Or.inr (Or.inl (List.mem_singleton.mp hc ▸ hfr))
          · rcases mem_fullSquare_chars hc with rfl | rfl
            · exact Or.inl hff
            · exact Or.inr (Or.inl hfr)
      · simp at hc
    rcases hc with hc | hc
    · split at hc
      · exact Or.inr (Or.inr (Or.inl (List.mem_singleton.mp hc)))
      · simp at hc
    · rcases hc with rfl | rfl | hc
      · exact Or.inl htf
      · exact Or.inr (Or.inl htr)
      · simp at hc

/-- C10: a successful `apply` preserves the moved piece's identity — the
destination afterwards holds exactly the piece the origin held — and the
recorded SAN carries no promotion suffix (`=` never occurs); a pawn
arriving on the final rank stays a pawn. -/
theorem applyNoPromotion (g : GameState) (f t : Square) (g2 : GameState)
    (hwf : WFPos g.position) (h : makeMove g f t = (true, g2)) :
    getPiece g2 t = getPiece g f ∧ ∀ c ∈ getLastMoveSAN g2, c ≠ '=' := by
  obtain ⟨pc, hg, hc, hm, rfl⟩ := makeMove_success_shape_wf hwf h
  have htf : t ≠ f := mem_getValidMoves_ne_self hm
  constructor
  · show posGet (posDel (posSet g.position t pc) f) t = posGet g.position f
    rw [posGet_posDel_ne _ htf, posGet_posSet_self, hg]
  · have hlast : getLastMoveSAN
        { position := posDel (posSet g.position t pc) f
          currentPlayer := flipColor g.currentPlayer
          moveHistory := g.moveHistory ++
            [{ fromSq := f, toSq := t, piece := pc,
               captured := posGet g.position t,
               san := generateMoveSAN g f t pc (posGet g.position t) }] } =
        generateMoveSAN g f t pc (posGet g.position t) := by
      simp [getLastMoveSAN, List.getLast?_concat]
    rw [hlast]
    intro c hcmem
    have hfv : isValidSquare f = true := hwf.1 (f, pc) (mem_of_posGet_eq_some hg)
    have htv : isValidSquare t = true := mem_getValidMoves_isValid hm
    rcases generateMoveSAN_chars hfv htv c hcmem with h1 | h1 | h1 | h1
    · intro he
      rw [he] at h1
      simp [isFileChar] at h1
    · intro he
      rw [he] at h1
      simp [isRankChar] at h1
    · intro he
      rw [he] at h1
      cases h1
    · intro he
      rw [he] at h1
      simp [isPieceChar] at h1

theorem applyNoPromotion_witness :
    getPiece afterE4 ['e','4'] = getPiece initialGame ['e','2'] ∧
    ∀ c ∈ getLastMoveSAN afterE4, c ≠ '=' :=
  applyNoPromotion initialGame ['e','2'] ['e','4'] afterE4
    (by constructor
        · decide
        · decide)
    (by decide)

/-! ## A store model for clone independence (C7)

`clone()` is a statement about reference sharing: the clone must own its
own position object and history array.  To express that in a shallow
embedding, position and history cells live in an addressed store and each
game record holds references into it; `clone` allocates fresh cells
holding copies (the source's `{ ...this.position }` and
`[...this.moveHistory]`), while an in-place `apply` writes through the
record's references. -/

/-- A `ChessGame` instance: references to its position and history cells
plus its by-value `currentPlayer` field. -/
structure GameRec where
  posRef : Nat
  currentPlayer : Color
  histRef : Nat
deriving DecidableEq, Repr

/-- The heap: position cells, history cells, and the live game records. -/
structure StoreState where
  positions : List ChessPosition
  histories : List (List Move)
  games : List GameRec
deriving DecidableEq, Repr

/-- `getPiece` on the game at index `i`. -/
def storeGetPiece (s : StoreState) (i : Nat) (sq : Square) : Option Piece :=
  match s.games[i]? with
  | some r => posGet (s.positions.getD r.posRef []) sq
  | none => none

/-- `clone()` of the game at index `i`: fresh position and history cells
holding copies of the original's, same `currentPlayer`; returns the new
game's index. -/
def cloneOp (s : StoreState) (i : Nat) : StoreState × Nat :=
  match s.games[i]? with
  | some r =>
    ({ positions := s.positions ++ [s.positions.getD r.posRef []]
       histories := s.histories ++ [s.histories.getD r.histRef []]
       games := s.games ++
         [{ posRef := s.positions.length, currentPlayer := r.currentPlayer,
            histRef := s.histories.length }] },
     s.games.length)
  | none => (s, i)

/-- `makeMove` on the game at index `i`, writing the updated position and
history through the record's references. -/
def applyOp (s : StoreState) (i : Nat) (f t : Square) : StoreState :=
  match s.games[i]? with
  | some r =>
    { positions := s.positions.set r.posRef
        (makeMove ⟨s.positions.getD r.posRef [], r.currentPlayer, s.histories.getD r.histRef []⟩
          f t).2.position
      histories := s.histories.set r.histRef
        (makeMove ⟨s.positions.getD r.posRef [], r.currentPlayer, s.histories.getD r.histRef []⟩
          f t).2.moveHistory
      games := s.games.set i
        { r with currentPlayer :=
            (makeMove ⟨s.positions.getD r.posRef [], r.currentPlayer,
              s.histories.getD r.histRef []⟩ f t).2.currentPlayer } }
  | none => s

/-- A sequence of `apply` calls on the game at index `i`. -/
def applyOps : StoreState → Nat → List (Square × Square) → StoreState
  | s, _, [] => s
  | s, i, m :: ms => applyOps (applyOp s i m.1 m.2) i ms

theorem applyOp_frame {s : StoreState} {i j : Nat} (hij : i ≠ j)
    (hpr : ∀ ri rj, s.games[i]? = some ri → s.games[j]? = some rj → ri.posRef ≠ rj.posRef)
    (f t : Square) :
    (applyOp s j f t).games[i]? = s.games[i]? ∧
    (∀ sq, storeGetPiece (applyOp s j f t) i sq = storeGetPiece s i sq) ∧
    (applyOp s j f t).games[j]?.map GameRec.posRef = s.games[j]?.map GameRec.posRef := by
  cases hj : s.games[j]? with
  | none => simp [applyOp, hj]
  | some rj =>
    have hgi : (applyOp s j f t).games[i]? = s.games[i]? := by
      simp only [applyOp, hj]
      exact List.getElem?_set_ne (fun he => hij he.symm)
    refine ⟨hgi, ?_, ?_⟩
    · intro sq
      rw [storeGetPiece, storeGetPiece, hgi]
      cases hi : s.games[i]? with
      | none => rfl
      | some ri =>
        have hne : ri.posRef ≠ rj.posRef := hpr ri rj hi hj
        simp only [applyOp, hj]
        rw [List.getD_eq_getElem?_getD, List.getElem?_set_ne (Ne.symm hne),
          ← List.getD_eq_getElem?_getD]
    · have hlt : j < s.games.length := by
        rcases List.getElem?_eq_some_iff.mp hj with ⟨h1, _⟩
        exact h1
      simp only [applyOp, hj]
      rw [List.getElem?_set_self hlt]
      rfl

theorem applyOps_frame {i j : Nat} (hij : i ≠ j) (ms : List (Square × Square)) :
    ∀ s : StoreState,
      (∀ ri rj, s.games[i]? = some ri → s.games[j]? = some rj → ri.posRef ≠ rj.posRef) →
      ∀ sq, storeGetPiece (applyOps s j ms) i sq = storeGetPiece s i sq := by
  induction ms with
  | nil => intro s _ sq; rfl
  | cons m ms ih =>
    intro s hpr sq
    obtain ⟨hgi, hgp, hgj⟩ := applyOp_frame hij hpr m.1 m.2
    have hpr2 : ∀ ri rj, (applyOp s j m.1 m.2).games[i]? = some ri →
        (applyOp s j m.1 m.2).games[j]? = some rj → ri.posRef ≠ rj.posRef := by
      intro ri rj hri hrj
      rw [hgi] at hri
      cases hj0 : s.games[j]? with
      | none => rw [hj0] at hgj; rw [hrj] at hgj; cases hgj
      | some rj0 =>
        have : rj.posRef = rj0.posRef := by
          rw [hj0, hrj] at hgj
          simpa using hgj
        rw [this]
        exact hpr ri rj0 hri hj0
    rw [show applyOps s j (m :: ms) = applyOps (applyOp s j m.1 m.2) j ms from rfl,
      ih (applyOp s j m.1 m.2) hpr2 sq]
    exact hgp sq

/-- Every record's references point inside the store — true of every store
built by constructing, cloning and applying. -/
def WFStore (s : StoreState) : Prop :=
  ∀ r ∈ s.games, r.posRef < s.positions.length ∧ r.histRef < s.histories.length

/-- C7: after `clone()`, any sequence of `apply` calls on the clone leaves
every `getPiece` answer of the original unchanged, and symmetrically any
sequence of `apply` calls on the original leaves the clone's `getPiece`
answers unchanged: the clone owns fresh position and history cells. -/
theorem storeGetPiece_eq {s : StoreState} {i : Nat} {r : GameRec}
    (h : s.games[i]? = some r) (sq : Square) :
    storeGetPiece s i sq = posGet (s.positions.getD r.posRef []) sq := by
  simp only [storeGetPiece, h]

theorem cloneIndependence (s : StoreState) (i : Nat) (hwf : WFStore s)
    (hi : i < s.games.length) (ms : List (Square × Square)) (sq : Square) :
    storeGetPiece (applyOps (cloneOp s i).1 (cloneOp s i).2 ms) i sq = storeGetPiece s i sq ∧
    storeGetPiece (applyOps (cloneOp s i).1 i ms) (cloneOp s i).2 sq =
      storeGetPiece (cloneOp s i).1 (cloneOp s i).2 sq := by
  obtain ⟨ri, hri⟩ : ∃ ri, s.games[i]? = some ri := ⟨s.games[i], List.getElem?_eq_getElem hi⟩
  have hmem : ri ∈ s.games := by
    rcases List.getElem?_eq_some_iff.mp hri with ⟨h1, h2⟩
    exact h2 ▸ List.getElem_mem h1
  have hlt : ri.posRef < s.positions.length := (hwf ri hmem).1
  have hc1 : (cloneOp s i).1 =
      { positions := s.positions ++ [s.positions.getD ri.posRef []]
        histories := s.histories ++ [s.histories.getD ri.histRef []]
        games := s.games ++
          [{ posRef := s.positions.length, currentPlayer := ri.currentPlayer,
             histRef := s.histories.length }] } := by
    rw [cloneOp, hri]
  have hc2 : (cloneOp s i).2 = s.games.length := by
    rw [cloneOp, hri]
  have hij : i ≠ s.games.length := Nat.ne_of_lt hi
  have hgi1 : (cloneOp s i).1.games[i]? = some ri := by
    rw [hc1]
    show (s.games ++ _)[i]? = some ri
    rw [List.getElem?_append_left hi]
    exact hri
  have hgj1 : (cloneOp s i).1.games[s.games.length]? =
      some { posRef := s.positions.length, currentPlayer := ri.currentPlayer,
             histRef := s.histories.length } := by
    rw [hc1]
    show (s.games ++ _)[s.games.length]? = _
    simp
  have hposne : ri.posRef ≠ s.positions.length := Nat.ne_of_lt hlt
  constructor
  · have hpr : ∀ r1 r2, (cloneOp s i).1.games[i]? = some r1 →
        (cloneOp s i).1.games[s.games.length]? = some r2 → r1.posRef ≠ r2.posRef := by
      intro r1 r2 h1 h2
      rw [hgi1] at h1
      rw [hgj1] at h2
      obtain rfl := Option.some_inj.mp h1
      obtain rfl := Option.some_inj.mp h2
      exact hposne
    have hframe := applyOps_frame hij ms (cloneOp s i).1 hpr sq
    rw [hc2, hframe, storeGetPiece_eq hgi1 sq, storeGetPiece_eq hri sq, hc1]
    show posGet ((s.positions ++ [s.positions.getD ri.posRef []]).getD ri.posRef []) sq =
      posGet (s.positions.getD ri.posRef []) sq
    rw [List.getD_eq_getElem?_getD, List.getElem?_append_left hlt,
      ← List.getD_eq_getElem?_getD]
  · have hpr : ∀ r1 r2, (cloneOp s i).1.games[s.games.length]? = some r1 →
        (cloneOp s i).1.games[i]? = some r2 → r1.posRef ≠ r2.posRef := by
      intro r1 r2 h1 h2
      rw [hgj1] at h1
      rw [hgi1] at h2
      obtain rfl := Option.some_inj.mp h1
      obtain rfl := Option.some_inj.mp h2
      exact Ne.symm hposne
    have hframe := applyOps_frame (Ne.symm hij) ms (cloneOp s i).1 hpr sq
    rw [hc2]
    exact hframe

/-- A one-game store holding a fresh `ChessGame`. -/
def initialStore : StoreState :=
  { positions := [initialPosition], histories := [[]],
    games := [{ posRef := 0, currentPlayer := Color.w, histRef := 0 }] }

theorem cloneIndependence_witness :
    storeGetPiece
        (applyOps (cloneOp initialStore 0).1 (cloneOp initialStore 0).2
          [(['e','2'], ['e','4'])]) 0 ['e','2'] =
      storeGetPiece initialStore 0 ['e','2'] ∧
    storeGetPiece (applyOps (cloneOp initialStore 0).1 0 [(['e','2'], ['e','4'])])
        (cloneOp initialStore 0).2 ['e','2'] =
      storeGetPiece (cloneOp initialStore 0).1 (cloneOp initialStore 0).2 ['e','2'] :=
  cloneIndependence initialStore 0 (by unfold WFStore; decide) (by decide)
    [(['e','2'], ['e','4'])] ['e','2']

/-! ## Reachable states and the piece-scarcity invariant (for C2) -/

/-- States reachable from the fresh game through successful `makeMove`s. -/
inductive Reachable : GameState → Prop where
  | base : Reachable initialGame
  | step (g : GameState) (f t : Square) (g2 : GameState) :
      Reachable g → makeMove g f t = (true, g2) → Reachable g2

/-- How many squares hold a given piece. -/
def pieceCount (pos : ChessPosition) (pc : Piece) : Nat :=
  (pos.filter fun e => decide (e.2 = pc)).length

/-- No colour ever has more than two pieces of one non-pawn type (no
promotion exists, so the initial counts never grow). -/
def ScarcePos (pos : ChessPosition) : Prop :=
  ∀ pc : Piece, pc.ptype ≠ PType.P → pieceCount pos pc ≤ 2

theorem pieceCount_posSet_le (pos : ChessPosition) (k : Square) (v : Piece) (pc : Piece) :
    pieceCount (posSet pos k v) pc ≤ pieceCount pos pc + 1 := by
  induction pos with
  | nil => by_cases h : v = pc <;> simp [pieceCount, posSet, h]
  | cons e rest ih =>
    obtain ⟨ek, ev⟩ := e
    by_cases hk : ek = k
    · by_cases hev : ev = pc <;> by_cases hv : v = pc <;>
        simp [pieceCount, posSet, hk, hev, hv] <;>
        simp [pieceCount] at ih ⊢ <;> omega
    · by_cases hev : ev = pc <;>
        simp [pieceCount, posSet, hk, hev] <;>
        simp [pieceCount] at ih ⊢ <;> omega

theorem pieceCount_posSet_le_of_ne (pos : ChessPosition) (k : Square) {v pc : Piece}
    (hne : v ≠ pc) : pieceCount (posSet pos k v) pc ≤ pieceCount pos pc := by
  induction pos with
  | nil => simp [pieceCount, posSet, hne]
  | cons e rest ih =>
    obtain ⟨ek, ev⟩ := e
    by_cases hk : ek = k
    · by_cases hev : ev = pc <;> simp [pieceCount, posSet, hk, hev, hne] <;>
        simp [pieceCount] at ih ⊢ <;> omega
    · by_cases hev : ev = pc <;> simp [pieceCount, posSet, hk, hev] <;>
        simp [pieceCount] at ih ⊢ <;> omega

theorem pieceCount_posDel_le (pos : ChessPosition) (k : Square) (pc : Piece) :
    pieceCount (posDel pos k) pc ≤ pieceCount pos pc := by
  induction pos with
  | nil => simp [pieceCount, posDel]
  | cons e rest ih =>
    obtain ⟨ek, ev⟩ := e
    by_cases hk : ek = k
    · by_cases hev : ev = pc <;> simp [pieceCount, posDel, hk, hev] <;>
        simp [pieceCount] at ih ⊢ <;> omega
    · by_cases hev : ev = pc <;> simp [pieceCount, posDel, hk, hev] <;>
        simp [pieceCount] at ih ⊢ <;> omega

theorem posDel_eq_of_not_mem {pos : ChessPosition} {k : Square}
    (h : k ∉ pos.map Prod.fst) : posDel pos k = pos := by
  induction pos with
  | nil => rfl
  | cons e rest ih =>
    obtain ⟨ek, ev⟩ := e
    have hk : ek ≠ k := fun hc =>
      h (hc ▸ List.mem_map_of_mem Prod.fst (List.mem_cons_self _ _))
    have hr : k ∉ rest.map Prod.fst := fun hc =>
      h (by simp only [List.map_cons]; exact List.mem_cons_of_mem _ hc)
    simp [posDel, hk, ih hr]

theorem pieceCount_posDel_of_get {pos : ChessPosition} {k : Square} {v : Piece}
    (hnd : (pos.map Prod.fst).Nodup) (hg : posGet pos k = some v) :
    pieceCount (posDel pos k) v + 1 ≤ pieceCount pos v := by
  induction pos with
  | nil => simp [posGet] at hg
  | cons e rest ih =>
    obtain ⟨ek, ev⟩ := e
    by_cases hk : ek = k
    · obtain rfl : ev = v := by simpa [posGet, hk] using hg
      have hknot : k ∉ rest.map Prod.fst := hk ▸ (List.nodup_cons.mp hnd).1
      simp [posDel, hk, posDel_eq_of_not_mem hknot, pieceCount]
    · have hg2 : posGet rest k = some v := by simpa [posGet, hk] using hg
      have ih2 := ih (List.nodup_cons.mp hnd).2 hg2
      by_cases hev : ev = v <;> simp [posDel, hk, pieceCount, hev] <;>
        simp [pieceCount] at ih2 ⊢ <;> omega

theorem ScarcePos_makeMove {g : GameState} {f t : Square} {g2 : GameState}
    (hwf : WFPos g.position) (hsc : ScarcePos g.position)
    (h : makeMove g f t = (true, g2)) : ScarcePos g2.position := by
  obtain ⟨pc, hg, hc, hm, rfl⟩ := makeMove_success_shape_wf hwf h
  have htf : t ≠ f := mem_getValidMoves_ne_self hm
  intro pc2 hp2
  by_cases hpc : pc = pc2
  · subst hpc
    have hgX : posGet (posSet g.position t pc) f = some pc := by
      rw [posGet_posSet_ne _ _ (Ne.symm htf)]
      exact hg
    have hndX : ((posSet g.position t pc).map Prod.fst).Nodup :=
      (WFPos_posSet hwf (mem_getValidMoves_isValid hm)).2
    have h1 := pieceCount_posDel_of_get hndX hgX
    have h2 := pieceCount_posSet_le g.position t pc pc
    have h3 := hsc pc hp2
    show pieceCount (posDel (posSet g.position t pc) f) pc ≤ 2
    omega
  · have h1 := pieceCount_posDel_le (posSet g.position t pc) f pc2
    have h2 := @pieceCount_posSet_le_of_ne g.position t pc pc2 hpc
    have h3 := hsc pc2 hp2
    show pieceCount (posDel (posSet g.position t pc) f) pc2 ≤ 2
    omega

theorem WFPos_initial : WFPos initialGame.position := by
  constructor
  · decide
  · decide

theorem ScarcePos_initial : ScarcePos initialGame.position := by
  intro pc hp
  obtain ⟨c, t0⟩ := pc
  cases c <;> cases t0 <;> first
    | exact absurd rfl hp
    | decide

/-- Every reachable state has a well-formed, piece-scarce position. -/
theorem reachable_good {g : GameState} (hr : Reachable g) :
    WFPos g.position ∧ ScarcePos g.position := by
  induction hr with
  | base => exact ⟨WFPos_initial, ScarcePos_initial⟩
  | step g f t g2 _ hmv ih =>
    exact ⟨WFPos_makeMove ih.1 hmv, ScarcePos_makeMove ih.1 ih.2 hmv⟩

/-! ## The candidate / ambiguity scans as filters -/

theorem mem_filterMap_if {p : Square × Piece → Prop} [DecidablePred p]
    {pos : ChessPosition} {x : Square} :
    x ∈ pos.filterMap (fun e => if p e then some e.1 else none) ↔
      ∃ v, (x, v) ∈ pos ∧ p (x, v) := by
  rw [List.mem_filterMap]
  constructor
  · rintro ⟨e, he, hval⟩
    by_cases hp : p e
    · rw [if_pos hp] at hval
      obtain rfl : e.1 = x := by simpa using hval
      exact ⟨e.2, he, hp⟩
    · rw [if_neg hp] at hval; cases hval
  · rintro ⟨v, hv, hp⟩
    exact ⟨(x, v), hv, by rw [if_pos hp]⟩

theorem filterMap_if_sublist {p : Square × Piece → Prop} [DecidablePred p]
    (pos : ChessPosition) :
    (pos.filterMap (fun e => if p e then some e.1 else none)).Sublist
      (pos.map Prod.fst) := by
  induction pos with
  | nil => simp
  | cons e rest ih =>
    rw [List.filterMap_cons, List.map_cons]
    by_cases hp : p e
    · rw [if_pos hp]
      exact ih.cons₂ e.1
    · rw [if_neg hp]
      exact ih.cons e.1

theorem filterMap_if_nodup {p : Square × Piece → Prop} [DecidablePred p]
    {pos : ChessPosition} (hnd : (pos.map Prod.fst).Nodup) :
    (pos.filterMap (fun e => if p e then some e.1 else none)).Nodup :=
  (filterMap_if_sublist pos).nodup hnd

theorem filterMap_if_single {p : Square × Piece → Prop} [DecidablePred p]
    {pos : ChessPosition} {f : Square} {pc : Piece}
    (hnd : (pos.map Prod.fst).Nodup) (hmem : (f, pc) ∈ pos) (hp : p (f, pc))
    (huniq : ∀ e ∈ pos, p e → e = (f, pc)) :
    pos.filterMap (fun e => if p e then some e.1 else none) = [f] := by
  induction pos with
  | nil => cases hmem
  | cons e rest ih =>
    rw [List.filterMap_cons]
    rcases List.mem_cons.mp hmem with he | he
    · subst he
      rw [if_pos hp]
      have hrest : rest.filterMap (fun e => if p e then some e.1 else none) = [] := by
        rw [List.filterMap_eq_nil_iff]
        intro e he2
        by_cases hpe : p e
        · have := huniq e (List.mem_cons_of_mem _ he2) hpe
          exfalso
          apply (List.nodup_cons.mp hnd).1
          rw [← this] at *
          exact List.mem_map_of_mem Prod.fst he2
        · rw [if_neg hpe]
      rw [hrest]
    · have hef : ¬ p e := by
        intro hpe
        have heq := huniq e (List.mem_cons_self e rest) hpe
        subst heq
        exact (List.nodup_cons.mp hnd).1 (List.mem_map_of_mem Prod.fst he)
      rw [if_neg hef]
      exact ih (List.nodup_cons.mp hnd).2 he (fun e2 he2 hp2 =>
        huniq e2 (List.mem_cons_of_mem _ he2) hp2)

theorem mem_findAmbiguousMoves {g : GameState} {f t x : Square} {pc : Piece} :
    x ∈ findAmbiguousMoves g f t pc ↔
      ∃ v, (x, v) ∈ g.position ∧ v.color = pc.color ∧ v.ptype = pc.ptype ∧ x ≠ f ∧
        t ∈ getValidMoves g x := by
  rw [findAmbiguousMoves, mem_filterMap_if]

theorem typeChar_inj : ∀ a b : PType, typeChar a = typeChar b → a = b := by
  intro a b h
  cases a <;> cases b <;> first
    | rfl
    | exact absurd h (by decide)

theorem piece_eta (pc : Piece) : pc = ⟨pc.color, pc.ptype⟩ := rfl

theorem pieceCount_cons_pos {ek : Square} {ev : Piece} {rest : ChessPosition} {v : Piece}
    (h : ev = v) : pieceCount ((ek, ev) :: rest) v = pieceCount rest v + 1 := by
  simp [pieceCount, h]

theorem pieceCount_cons_neg {ek : Square} {ev : Piece} {rest : ChessPosition} {v : Piece}
    (h : ev ≠ v) : pieceCount ((ek, ev) :: rest) v = pieceCount rest v := by
  simp [pieceCount, h]

theorem posGet_cons_ne {ek : Square} {ev : Piece} {rest : ChessPosition} {k : Square}
    (h : ek ≠ k) : posGet ((ek, ev) :: rest) k = posGet rest k := by
  simp [posGet, h]

theorem posGet_cons_self {ek : Square} {ev : Piece} {rest : ChessPosition} :
    posGet ((ek, ev) :: rest) ek = some ev := by
  simp [posGet]

theorem pieceCount_ge_one {pos : ChessPosition} {k : Square} {v : Piece}
    (h : posGet pos k = some v) : 1 ≤ pieceCount pos v := by
  induction pos with
  | nil => simp [posGet] at h
  | cons e rest ih =>
    obtain ⟨ek, ev⟩ := e
    by_cases hk : ek = k
    · have hev : ev = v := by simpa [posGet, hk] using h
      rw [pieceCount_cons_pos hev]
      omega
    · have h2 : posGet rest k = some v := by simpa [posGet, hk] using h
      have := ih h2
      by_cases hev : ev = v
      · rw [pieceCount_cons_pos hev]; omega
      · rw [pieceCount_cons_neg hev]; omega

theorem pieceCount_ge_two {pos : ChessPosition} {k1 k2 : Square} {v : Piece}
    (h1 : posGet pos k1 = some v) (h2 : posGet pos k2 = some v) (h12 : k1 ≠ k2) :
    2 ≤ pieceCount pos v := by
  induction pos with
  | nil => simp [posGet] at h1
  | cons e rest ih =>
    obtain ⟨ek, ev⟩ := e
    by_cases hk1 : ek = k1
    · have hev : ev = v := by simpa [posGet, hk1] using h1
      have h2r : posGet rest k2 = some v := by
        have hne : ek ≠ k2 := by rw [hk1]; exact h12
        simpa [posGet, hne] using h2
      rw [pieceCount_cons_pos hev]
      have := pieceCount_ge_one h2r
      omega
    · by_cases hk2 : ek = k2
      · have hev : ev = v := by simpa [posGet, hk2] using h2
        have h1r : posGet rest k1 = some v := by simpa [posGet, hk1] using h1
        rw [pieceCount_cons_pos hev]
        have := pieceCount_ge_one h1r
        omega
      · have h1r : posGet rest k1 = some v := by simpa [posGet, hk1] using h1
        have h2r : posGet rest k2 = some v := by simpa [posGet, hk2] using h2
        have := ih h1r h2r
        by_cases hev : ev = v
        · rw [pieceCount_cons_pos hev]; omega
        · rw [pieceCount_cons_neg hev]; omega

theorem pieceCount_ge_three {pos : ChessPosition} {k1 k2 k3 : Square} {v : Piece}
    (h1 : posGet pos k1 = some v) (h2 : posGet pos k2 = some v)
    (h3 : posGet pos k3 = some v) (h12 : k1 ≠ k2) (h13 : k1 ≠ k3) (h23 : k2 ≠ k3) :
    3 ≤ pieceCount pos v := by
  induction pos with
  | nil => simp [posGet] at h1
  | cons e rest ih =>
    obtain ⟨ek, ev⟩ := e
    by_cases hk1 : ek = k1
    · have hev : ev = v := by simpa [posGet, hk1] using h1
      have h2r : posGet rest k2 = some v := by
        have hne : ek ≠ k2 := by rw [hk1]; exact h12
        simpa [posGet, hne] using h2
      have h3r : posGet rest k3 = some v := by
        have hne : ek ≠ k3 := by rw [hk1]; exact h13
        simpa [posGet, hne] using h3
      rw [pieceCount_cons_pos hev]
      have := pieceCount_ge_two h2r h3r h23
      omega
    · by_cases hk2 : ek = k2
      · have hev : ev = v := by simpa [posGet, hk2] using h2
        have h1r : posGet rest k1 = some v := by simpa [posGet, hk1] using h1
        have h3r : posGet rest k3 = some v := by
          have hne : ek ≠ k3 := by rw [hk2]; exact h23
          simpa [posGet, hne] using h3
        rw [pieceCount_cons_pos hev]
        have := pieceCount_ge_two h1r h3r h13
        omega
      · by_cases hk3 : ek = k3
        · have hev : ev = v := by simpa [posGet, hk3] using h3
          have h1r : posGet rest k1 = some v := by simpa [posGet, hk1] using h1
          have h2r : posGet rest k2 = some v := by simpa [posGet, hk2] using h2
          rw [pieceCount_cons_pos hev]
          have := pieceCount_ge_two h1r h2r h12
          omega
        · have h1r : posGet rest k1 = some v := by simpa [posGet, hk1] using h1
          have h2r : posGet rest k2 = some v := by simpa [posGet, hk2] using h2
          have h3r : posGet rest k3 = some v := by simpa [posGet, hk3] using h3
          have := ih h1r h2r h3r
          by_cases hev : ev = v
          · rw [pieceCount_cons_pos hev]; omega
          · rw [pieceCount_cons_neg hev]; omega

/-- With at most two same-kind pieces on the board, the ambiguity resolver
reports at most one alternative square. -/
theorem findAmbiguousMoves_length_le_one {g : GameState} {f t : Square} {pc : Piece}
    (hwf : WFPos g.position) (hsc : ScarcePos g.position)
    (hg : posGet g.position f = some pc) (hnp : pc.ptype ≠ PType.P) :
    (findAmbiguousMoves g f t pc).length ≤ 1 := by
  by_contra hlen
  push_neg at hlen
  obtain ⟨a, b, rest, hab⟩ : ∃ a b rest, findAmbiguousMoves g f t pc = a :: b :: rest := by
    cases hl : findAmbiguousMoves g f t pc with
    | nil => rw [hl] at hlen; simp at hlen
    | cons a l2 =>
      cases l2 with
      | nil => rw [hl] at hlen; simp at hlen
      | cons b rest => exact ⟨a, b, rest, rfl⟩
  have hnd : (findAmbiguousMoves g f t pc).Nodup := filterMap_if_nodup hwf.2
  have hane : a ≠ b := by
    rw [hab] at hnd
    intro he
    exact (List.nodup_cons.mp hnd).1 (he ▸ List.mem_cons_self b rest)
  have ham : a ∈ findAmbiguousMoves g f t pc := hab ▸ List.mem_cons_self _ _
  have hbm : b ∈ findAmbiguousMoves g f t pc :=
    hab ▸ List.mem_cons_of_mem _ (List.mem_cons_self _ _)
  obtain ⟨va, hva, hva1, hva2, hvaf, _⟩ := mem_findAmbiguousMoves.mp ham
  obtain ⟨vb, hvb, hvb1, hvb2, hvbf, _⟩ := mem_findAmbiguousMoves.mp hbm
  have hva' : va = pc := by
    rw [piece_eta va, piece_eta pc, hva1, hva2]
  have hvb' : vb = pc := by
    rw [piece_eta vb, piece_eta pc, hvb1, hvb2]
  have hga : posGet g.position a = some pc := hva' ▸ posGet_eq_some_of_mem hwf.2 hva
  have hgb : posGet g.position b = some pc := hvb' ▸ posGet_eq_some_of_mem hwf.2 hvb
  have h3 := pieceCount_ge_three hg hga hgb (Ne.symm hvaf) (Ne.symm hvbf) hane
  have h2 := hsc pc hnp
  omega

/-! ## Character classes of generated SAN -/

theorem isFileChar_props {c : Char} (h : isFileChar c = true) :
    c ≠ 'x' ∧ c ≠ 'O' ∧ c ≠ '0' ∧ isWsChar c = false ∧
    (c = '+' || c = '#' || c = '!' || c = '?') = false ∧
    isRankChar c = false ∧ isPieceChar c = false := by
  have hm := mem_filesList_of_isFileChar h
  fin_cases hm <;> exact (by decide)

theorem isRankChar_props {c : Char} (h : isRankChar c = true) :
    c ≠ 'x' ∧ c ≠ 'O' ∧ c ≠ '0' ∧ isWsChar c = false ∧
    (c = '+' || c = '#' || c = '!' || c = '?') = false ∧
    isFileChar c = false ∧ isPieceChar c = false := by
  have hm := mem_ranksList_of_isRankChar h
  fin_cases hm <;> exact (by decide)

theorem isPieceChar_cases {c : Char} (h : isPieceChar c = true) :
    c = 'K' ∨ c = 'Q' ∨ c = 'R' ∨ c = 'B' ∨ c = 'N' := by
  have h2 : (((c = 'K' ∨ c = 'Q') ∨ c = 'R') ∨ c = 'B') ∨ c = 'N' := by
    simpa [isPieceChar, Bool.or_eq_true, decide_eq_true_eq] using h
  tauto

theorem isPieceChar_props {c : Char} (h : isPieceChar c = true) :
    c ≠ 'x' ∧ c ≠ 'O' ∧ c ≠ '0' ∧ isWsChar c = false ∧
    (c = '+' || c = '#' || c = '!' || c = '?') = false ∧
    isFileChar c = false ∧ isRankChar c = false := by
  rcases isPieceChar_cases h with rfl | rfl | rfl | rfl | rfl <;> exact (by decide)

/-! ## The strip / trim preprocessing is the identity on generated SAN -/

theorem dropWhile_eq_self_of_head {p : Char → Bool} {l : List Char}
    (h : ∀ c, l.head? = some c → p c = false) : l.dropWhile p = l := by
  cases l with
  | nil => rfl
  | cons a l2 => simp [List.dropWhile_cons, h a rfl]

theorem stripSANSuffix_eq {l : List Char}
    (h : ∀ c, l.getLast? = some c → (c = '+' || c = '#' || c = '!' || c = '?') = false) :
    stripSANSuffix l = l := by
  rw [stripSANSuffix,
    dropWhile_eq_self_of_head (fun c hc => h c (by rwa [List.head?_reverse] at hc)),
    List.reverse_reverse]

theorem jsTrim_eq {l : List Char}
    (h1 : ∀ c, l.head? = some c → isWsChar c = false)
    (h2 : ∀ c, l.getLast? = some c → isWsChar c = false) : jsTrim l = l := by
  rw [jsTrim, dropWhile_eq_self_of_head h1,
    dropWhile_eq_self_of_head (fun c hc => h2 c (by rwa [List.head?_reverse] at hc)),
    List.reverse_reverse]

theorem ne_castles_of_head {n : List Char} {c : Char} (hh : n.head? = some c)
    (hO : c ≠ 'O') (h0 : c ≠ '0') :
    n ≠ ['O','-','O'] ∧ n ≠ ['0','-','0'] ∧
    n ≠ ['O','-','O','-','O'] ∧ n ≠ ['0','-','0','-','0'] := by
  refine ⟨?_, ?_, ?_, ?_⟩ <;> intro he <;> rw [he] at hh <;> simp at hh
  · exact hO hh.symm
  · exact h0 hh.symm
  · exact hO hh.symm
  · exact h0 hh.symm

/-! ## Shape matching on generated SAN forms -/

theorem matchSANShape_pawn2 {tf tr : Char} (h1 : isFileChar tf = true)
    (h2 : isRankChar tr = true) :
    matchSANShape [tf, tr] = some ⟨'P', none, none, false, [tf, tr]⟩ := by
  simp [matchSANShape, h1, h2]

theorem matchSANShape_pawnCap {ff tf tr : Char} (hf : isFileChar ff = true)
    (h1 : isFileChar tf = true) (h2 : isRankChar tr = true) :
    matchSANShape [ff, 'x', tf, tr] = some ⟨'P', some ff, none, true, [tf, tr]⟩ := by
  simp [matchSANShape, hf, h1, h2]

theorem matchSANShape_piece3 {p tf tr : Char} (hp : isPieceChar p = true)
    (h1 : isFileChar tf = true) (h2 : isRankChar tr = true) :
    matchSANShape [p, tf, tr] = some ⟨p, none, none, false, [tf, tr]⟩ := by
  simp [matchSANShape, hp, h1, h2]

theorem matchSANShape_pieceCap {p tf tr : Char} (hp : isPieceChar p = true)
    (h1 : isFileChar tf = true) (h2 : isRankChar tr = true) :
    matchSANShape [p, 'x', tf, tr] = some ⟨p, none, none, true, [tf, tr]⟩ := by
  have hnf : isFileChar p = false := (isPieceChar_props hp).2.2.2.2.2.1
  simp [matchSANShape, hp, h1, h2, hnf]

theorem matchSANShape_fileDis {p ff tf tr : Char} (hp : isPieceChar p = true)
    (hff : isFileChar ff = true) (h1 : isFileChar tf = true) (h2 : isRankChar tr = true) :
    matchSANShape [p, ff, tf, tr] = some ⟨p, some ff, none, false, [tf, tr]⟩ := by
  have hnf : isFileChar p = false := (isPieceChar_props hp).2.2.2.2.2.1
  have hx : ff ≠ 'x' := (isFileChar_props hff).1
  simp [matchSANShape, hp, hff, h1, h2, hnf, hx]

theorem matchSANShape_rankDis {p fr tf tr : Char} (hp : isPieceChar p = true)
    (hfr : isRankChar fr = true) (h1 : isFileChar tf = true) (h2 : isRankChar tr = true) :
    matchSANShape [p, fr, tf, tr] = some ⟨p, none, some fr, false, [tf, tr]⟩ := by
  have hnf : isFileChar p = false := (isPieceChar_props hp).2.2.2.2.2.1
  have hx : fr ≠ 'x' := (isRankChar_props hfr).1
  have hrf : isFileChar fr = false := (isRankChar_props hfr).2.2.2.2.2.1
  simp [matchSANShape, hp, hfr, h1, h2, hnf, hx, hrf]

theorem matchSANShape_fileDisCap {p ff tf tr : Char} (hp : isPieceChar p = true)
    (hff : isFileChar ff = true) (h1 : isFileChar tf = true) (h2 : isRankChar tr = true) :
    matchSANShape [p, ff, 'x', tf, tr] = some ⟨p, some ff, none, true, [tf, tr]⟩ := by
  simp [matchSANShape, hp, hff, h1, h2]

theorem matchSANShape_rankDisCap {p fr tf tr : Char} (hp : isPieceChar p = true)
    (hfr : isRankChar fr = true) (h1 : isFileChar tf = true) (h2 : isRankChar tr = true) :
    matchSANShape [p, fr, 'x', tf, tr] = some ⟨p, none, some fr, true, [tf, tr]⟩ := by
  have hrf : isFileChar fr = false := (isRankChar_props hfr).2.2.2.2.2.1
  simp [matchSANShape, hp, hfr, h1, h2, hrf]

theorem parseSAN_via_shape {g : GameState} {n : List Char} {parts : SANParts}
    (hn : jsTrim (stripSANSuffix n) = n)
    (h1 : n ≠ ['O', '-', 'O']) (h2 : n ≠ ['0', '-', '0'])
    (h3 : n ≠ ['O', '-', 'O', '-', 'O']) (h4 : n ≠ ['0', '-', '0', '-', '0'])
    (hshape : matchSANShape n = some parts) :
    parseSAN g n =
      match findCandidatePieces g parts.pieceType parts.toSquare parts.fromFile
          parts.fromRank parts.isCapture with
      | [] => none
      | c :: _ => some (c, parts.toSquare) := by
  rw [parseSAN, hn]
  rw [if_neg ?hc1, if_neg ?hc2, hshape]
  case hc1 =>
    rintro (hc | hc)
    · exact h1 hc
    · exact h2 hc
  case hc2 =>
    rintro (hc | hc)
    · exact h3 hc
    · exact h4 hc

/-! ## Pawn geometry, decided over the sixty-four squares -/

theorem pawnOneForward_head (ff fr : Char) (c : Color) :
    (pawnOneForward [ff, fr] c).head? = some ff := rfl

theorem pawnTwoForward_head (ff fr : Char) (c : Color) :
    (pawnTwoForward [ff, fr] c).head? = some ff := rfl

theorem pawnForward_geom :
    ∀ fc ∈ filesList, ∀ r ∈ ranksList, ∀ r2 ∈ ranksList, ∀ c ∈ [Color.w, Color.b],
      (isValidSquare (pawnOneForward [fc, r] c) = true →
        pawnOneForward [fc, r] c = pawnOneForward [fc, r2] c → r = r2) ∧
      (isValidSquare (pawnTwoForward [fc, r] c) = true →
        pawnTwoForward [fc, r] c = pawnTwoForward [fc, r2] c → r = r2) ∧
      (isValidSquare (pawnOneForward [fc, r] c) = true →
        pawnOneForward [fc, r] c = pawnTwoForward [fc, r2] c →
        pawnOneForward [fc, r2] c = [fc, r]) := by decide

theorem pawnCapture_geom :
    ∀ fc ∈ filesList, ∀ r ∈ ranksList, ∀ r2 ∈ ranksList, ∀ c ∈ [Color.w, Color.b],
      ∀ off ∈ ([-1, 1] : List Int), ∀ off2 ∈ ([-1, 1] : List Int),
        pawnCaptureSquare [fc, r] c off = pawnCaptureSquare [fc, r2] c off2 →
        inBoard (fileIndexOf (some fc) + off) = true →
        inBoard (fileIndexOf (some fc) + off2) = true →
        r = r2 := by decide

/-! ## Round trip for pawn moves -/

theorem isValidSquare_mk {a b : Char} (h1 : isFileChar a = true) (h2 : isRankChar b = true) :
    isValidSquare [a, b] = true := by
  simp [isValidSquare, h1, h2]

theorem mem_getValidMoves_pawn {g : GameState} {sq t : Square} {v : Piece}
    (hgv : posGet g.position sq = some v) (hvp : v.ptype = PType.P)
    (hmm : t ∈ getValidMoves g sq) : t ∈ getPawnMoves g.position sq v.color := by
  obtain ⟨v2, hg2, _, _, _, hcases⟩ := mem_getValidMoves_cases hmm
  obtain rfl : v = v2 := by rw [hgv] at hg2; exact Option.some_inj.mp hg2
  rcases hcases with ⟨_, hx⟩ | ⟨he, _⟩ | ⟨he, _⟩ | ⟨he, _⟩ | ⟨he, _⟩ | ⟨he, _⟩
  · exact hx
  all_goals rw [hvp] at he; cases he

theorem color_mem_colors (c : Color) : c ∈ [Color.w, Color.b] := by
  cases c <;> simp

theorem head_eq_of_sq_eq {tf tr : Char} {x : Square} {c : Char}
    (h : ([tf, tr] : List Char) = x) (hx : x.head? = some c) : tf = c := by
  rw [← h] at hx
  exact Option.some_inj.mp hx

theorem candidateOK_parts {g : GameState} {ptc : Char} {tsq : Square} {ffo fro : Option Char}
    {cap : Bool} {sq : Square} {v : Piece}
    (h : candidateOK g ptc tsq ffo fro cap sq v = true) :
    v.color = g.currentPlayer ∧ typeChar v.ptype = ptc ∧
    (∀ fc, ffo = some fc → sq.head? = some fc) ∧
    (∀ rc, fro = some rc → sq[1]? = some rc) ∧
    tsq ∈ getValidMoves g sq := by
  rw [candidateOK.eq_def, Bool.and_eq_true, Bool.and_eq_true, Bool.and_eq_true,
    Bool.and_eq_true] at h
  obtain ⟨⟨⟨⟨h1, h2⟩, h3⟩, h4⟩, -⟩ := h
  rw [pieceCodeMatches, Bool.and_eq_true] at h1
  refine ⟨of_decide_eq_true h1.1, of_decide_eq_true h1.2, ?_, ?_, of_decide_eq_true h4⟩
  · intro fc hfc
    rw [hfc] at h2
    exact of_decide_eq_true h2
  · intro rc hrc
    rw [hrc] at h3
    exact of_decide_eq_true h3

theorem candidateOK_noncap {g : GameState} {ptc : Char} {tsq : Square} {ffo fro : Option Char}
    {sq : Square} {v : Piece}
    (h : candidateOK g ptc tsq ffo fro false sq v = true) :
    (posGet g.position tsq).isNone = true := by
  rw [candidateOK.eq_def, Bool.and_eq_true, Bool.and_eq_true, Bool.and_eq_true,
    Bool.and_eq_true] at h
  exact h.2

theorem candidateOK_cap_enemy {g : GameState} {ptc : Char} {tsq : Square}
    {ffo fro : Option Char} {sq : Square} {v tp : Piece}
    (hocc : posGet g.position tsq = some tp)
    (h : candidateOK g ptc tsq ffo fro true sq v = true) :
    tp.color ≠ g.currentPlayer := by
  rw [candidateOK.eq_def, Bool.and_eq_true, Bool.and_eq_true, Bool.and_eq_true,
    Bool.and_eq_true] at h
  have h5 := h.2
  rw [hocc] at h5
  exact of_decide_eq_true h5

theorem candidateOK_build_noncap {g : GameState} {ptc : Char} {tsq : Square}
    {ffo fro : Option Char} {sq : Square} {v : Piece}
    (h1 : v.color = g.currentPlayer) (h2 : typeChar v.ptype = ptc)
    (h3 : ∀ fc, ffo = some fc → sq.head? = some fc)
    (h4 : ∀ rc, fro = some rc → sq[1]? = some rc)
    (h5 : tsq ∈ getValidMoves g sq)
    (h6 : posGet g.position tsq = none) :
    candidateOK g ptc tsq ffo fro false sq v = true := by
  rw [candidateOK.eq_def, Bool.and_eq_true, Bool.and_eq_true, Bool.and_eq_true, Bool.and_eq_true]
  refine ⟨⟨⟨⟨?_, ?_⟩, ?_⟩, decide_eq_true h5⟩, ?_⟩
  · rw [pieceCodeMatches, Bool.and_eq_true]
    exact ⟨decide_eq_true h1, decide_eq_true h2⟩
  · cases ffo with
    | some fc => exact decide_eq_true (h3 fc rfl)
    | none => rfl
  · cases fro with
    | some rc => exact decide_eq_true (h4 rc rfl)
    | none => rfl
  · show (posGet g.position tsq).isNone = true
    rw [h6]
    rfl

theorem candidateOK_build_cap {g : GameState} {ptc : Char} {tsq : Square}
    {ffo fro : Option Char} {sq : Square} {v tp : Piece}
    (h1 : v.color = g.currentPlayer) (h2 : typeChar v.ptype = ptc)
    (h3 : ∀ fc, ffo = some fc → sq.head? = some fc)
    (h4 : ∀ rc, fro = some rc → sq[1]? = some rc)
    (h5 : tsq ∈ getValidMoves g sq)
    (h6 : posGet g.position tsq = some tp) (h7 : tp.color ≠ g.currentPlayer) :
    candidateOK g ptc tsq ffo fro true sq v = true := by
  rw [candidateOK.eq_def, Bool.and_eq_true, Bool.and_eq_true, Bool.and_eq_true, Bool.and_eq_true]
  refine ⟨⟨⟨⟨?_, ?_⟩, ?_⟩, decide_eq_true h5⟩, ?_⟩
  · rw [pieceCodeMatches, Bool.and_eq_true]
    exact ⟨decide_eq_true h1, decide_eq_true h2⟩
  · cases ffo with
    | some fc => exact decide_eq_true (h3 fc rfl)
    | none => rfl
  · cases fro with
    | some rc => exact decide_eq_true (h4 rc rfl)
    | none => rfl
  · show (match posGet g.position tsq with
      | some target => decide (target.color ≠ g.currentPlayer)
      | none =>
        if ptc = 'P' then
          (if tsq[1]? = some (if g.currentPlayer = Color.w then '6' else '3') then
            match posGet g.position
                (renderOptChar tsq.head? ++ [if g.currentPlayer = Color.w then '5' else '4']) with
            | some ep => decide (ep.color ≠ g.currentPlayer) && decide (ep.ptype = PType.P)
            | none => false
          else false)
        else false) = true
    rw [h6]
    exact decide_eq_true h7

/-- The identity of the strip/trim preprocessing on a two-character square
token and on any generated token with a known first and last character. -/
theorem stripTrim_id {n : List Char} {a b : Char}
    (hh : n.head? = some a) (hl : n.getLast? = some b)
    (hws1 : isWsChar a = false) (hws2 : isWsChar b = false)
    (hstrip : (b = '+' || b = '#' || b = '!' || b = '?') = false) :
    jsTrim (stripSANSuffix n) = n := by
  rw [stripSANSuffix_eq, jsTrim_eq]
  · intro c hc
    rw [hh] at hc
    obtain rfl := Option.some_inj.mp hc.symm
    exact hws1
  · intro c hc
    rw [hl] at hc
    obtain rfl := Option.some_inj.mp hc.symm
    exact hws2
  · intro c hc
    rw [hl] at hc
    obtain rfl := Option.some_inj.mp hc.symm
    exact hstrip

set_option maxHeartbeats 1000000 in
/-- Round trip of the codec for a successful pawn move: the generated SAN,
parsed against the pre-move state, recovers exactly the move played. -/
theorem roundTrip_pawn {g : GameState} {f t : Square} {pc : Piece}
    (hwf : WFPos g.position)
    (hg : posGet g.position f = some pc) (hcol : pc.color = g.currentPlayer)
    (hpt : pc.ptype = PType.P) (hm : t ∈ getValidMoves g f) :
    parseSAN g (generateMoveSAN g f t pc (posGet g.position t)) = some (f, t) := by
  obtain ⟨ff, fr, rfl, hff, hfr⟩ := isValidSquare_shape (hwf.1 _ (mem_of_posGet_eq_some hg))
  obtain ⟨tf, tr, rfl, htf, htr⟩ := isValidSquare_shape (mem_getValidMoves_isValid hm)
  obtain ⟨c0, t0⟩ := pc
  obtain rfl : t0 = PType.P := hpt
  have hcol2 : c0 = g.currentPlayer := hcol
  have hpmem : ([tf, tr] : Square) ∈ getPawnMoves g.position [ff, fr] c0 :=
    mem_getValidMoves_pawn hg rfl hm
  have hffm := mem_filesList_of_isFileChar hff
  have hfrm := mem_ranksList_of_isRankChar hfr
  have hcm := color_mem_colors c0
  rcases mem_getPawnMoves hpmem with ⟨h1, hemp⟩ | ⟨h1, hstart, hone, hemp⟩ |
    ⟨off, hoff, h1, hinb, tp, hocc, htpc⟩
  · -- one-square advance
    have htfff : tf = ff := head_eq_of_sq_eq h1 (pawnOneForward_head ff fr c0)
    have hsan : generateMoveSAN g [ff, fr] [tf, tr] ⟨c0, PType.P⟩
        (posGet g.position [tf, tr]) = [tf, tr] := by
      rw [hemp]
      simp [generateMoveSAN, htfff]
    rw [hsan]
    have hid : jsTrim (stripSANSuffix [tf, tr]) = [tf, tr] :=
      stripTrim_id rfl rfl (isFileChar_props htf).2.2.2.1 (isRankChar_props htr).2.2.2.1
        (isRankChar_props htr).2.2.2.2.1
    obtain ⟨hca, hcb, hcc, hcd⟩ :=
      ne_castles_of_head (rfl : ([tf, tr] : List Char).head? = some tf)
        (isFileChar_props htf).2.1 (isFileChar_props htf).2.2.1
    rw [parseSAN_via_shape hid hca hcb hcc hcd (matchSANShape_pawn2 htf htr)]
    have hval1 : isValidSquare (pawnOneForward [ff, fr] c0) = true := by
      rw [← h1]; exact isValidSquare_mk htf htr
    have hcand : findCandidatePieces g 'P' [tf, tr] none none false = [[ff, fr]] := by
      rw [findCandidatePieces]
      apply filterMap_if_single hwf.2 (mem_of_posGet_eq_some hg)
      · exact candidateOK_build_noncap hcol2 rfl (fun fc hfc => by cases hfc)
          (fun rc hrc => by cases hrc) hm hemp
      · rintro ⟨sq, v⟩ hev hok
        obtain ⟨hokc, hokt, -, -, hokm⟩ := candidateOK_parts hok
        have hvp : v.ptype = PType.P := typeChar_inj _ _ hokt
        have hgv : posGet g.position sq = some v := posGet_eq_some_of_mem hwf.2 hev
        have hvc : v.color = c0 := hokc.trans hcol2.symm
        have hpm2 : ([tf, tr] : Square) ∈ getPawnMoves g.position sq c0 := by
          rw [← hvc]
          exact mem_getValidMoves_pawn hgv hvp hokm
        obtain ⟨sf, sr, rfl, hsf, hsr⟩ := isValidSquare_shape (hwf.1 _ hev)
        have hsrm := mem_ranksList_of_isRankChar hsr
        rcases mem_getPawnMoves hpm2 with ⟨h2, -⟩ | ⟨h2, -, h2one, -⟩ |
          ⟨off2, hoff2, h2, hinb2, tp2, hocc2, -⟩
        · have hsfff : tf = sf := head_eq_of_sq_eq h2 (pawnOneForward_head sf sr c0)
          have hffsf : ff = sf := htfff ▸ hsfff
          rw [← hffsf] at h2
          have hreq : fr = sr :=
            (pawnForward_geom ff hffm fr hfrm sr hsrm c0 hcm).1 hval1 (h1.symm.trans h2)
          have hveq : v = ⟨c0, PType.P⟩ := by
            rw [← hffsf, ← hreq] at hgv
            rw [hgv] at hg
            exact Option.some_inj.mp hg
          rw [← hffsf, ← hreq, hveq]
        · -- t would be a two-step from sq, but then sq's one-step square is f,
          -- which is occupied by the moving pawn
          have hsfff : tf = sf := head_eq_of_sq_eq h2 (pawnTwoForward_head sf sr c0)
          have hffsf : ff = sf := htfff ▸ hsfff
          rw [← hffsf] at h2 h2one
          have hkey : pawnOneForward [ff, sr] c0 = [ff, fr] :=
            (pawnForward_geom ff hffm fr hfrm sr hsrm c0 hcm).2.2 hval1 (h1.symm.trans h2)
          rw [hkey] at h2one
          rw [h2one] at hg
          cases hg
        · rw [hocc2] at hemp
          cases hemp
    rw [hcand]
  · -- two-square advance
    have htfff : tf = ff := head_eq_of_sq_eq h1 (pawnTwoForward_head ff fr c0)
    have hsan : generateMoveSAN g [ff, fr] [tf, tr] ⟨c0, PType.P⟩
        (posGet g.position [tf, tr]) = [tf, tr] := by
      rw [hemp]
      simp [generateMoveSAN, htfff]
    rw [hsan]
    have hid : jsTrim (stripSANSuffix [tf, tr]) = [tf, tr] :=
      stripTrim_id rfl rfl (isFileChar_props htf).2.2.2.1 (isRankChar_props htr).2.2.2.1
        (isRankChar_props htr).2.2.2.2.1
    obtain ⟨hca, hcb, hcc, hcd⟩ :=
      ne_castles_of_head (rfl : ([tf, tr] : List Char).head? = some tf)
        (isFileChar_props htf).2.1 (isFileChar_props htf).2.2.1
    rw [parseSAN_via_shape hid hca hcb hcc hcd (matchSANShape_pawn2 htf htr)]
    have hval2 : isValidSquare (pawnTwoForward [ff, fr] c0) = true := by
      rw [← h1]; exact isValidSquare_mk htf htr
    have hcand : findCandidatePieces g 'P' [tf, tr] none none false = [[ff, fr]] := by
      rw [findCandidatePieces]
      apply filterMap_if_single hwf.2 (mem_of_posGet_eq_some hg)
      · exact candidateOK_build_noncap hcol2 rfl (fun fc hfc => by cases hfc)
          (fun rc hrc => by cases hrc) hm hemp
      · rintro ⟨sq, v⟩ hev hok
        obtain ⟨hokc, hokt, -, -, hokm⟩ := candidateOK_parts hok
        have hvp : v.ptype = PType.P := typeChar_inj _ _ hokt
        have hgv : posGet g.position sq = some v := posGet_eq_some_of_mem hwf.2 hev
        have hvc : v.color = c0 := hokc.trans hcol2.symm
        have hpm2 : ([tf, tr] : Square) ∈ getPawnMoves g.position sq c0 := by
          rw [← hvc]
          exact mem_getValidMoves_pawn hgv hvp hokm
        obtain ⟨sf, sr, rfl, hsf, hsr⟩ := isValidSquare_shape (hwf.1 _ hev)
        have hsrm := mem_ranksList_of_isRankChar hsr
        rcases mem_getPawnMoves hpm2 with ⟨h2, -⟩ | ⟨h2, -, -, -⟩ |
          ⟨off2, hoff2, h2, hinb2, tp2, hocc2, -⟩
        · -- t would be a one-step from sq, but sq sits on f's intervening
          -- square, which the two-step requires to be empty
          have hsfff : tf = sf := head_eq_of_sq_eq h2 (pawnOneForward_head sf sr c0)
          have hffsf : ff = sf := htfff ▸ hsfff
          rw [← hffsf] at h2 hgv
          have hval1b : isValidSquare (pawnOneForward [ff, sr] c0) = true := by
            rw [← h2]; exact isValidSquare_mk htf htr
          have hkey : pawnOneForward [ff, fr] c0 = [ff, sr] :=
            (pawnForward_geom ff hffm sr hsrm fr hfrm c0 hcm).2.2 hval1b (h2.symm.trans h1)
          rw [hkey] at hone
          rw [hone] at hgv
          cases hgv
        · have hsfff : tf = sf := head_eq_of_sq_eq h2 (pawnTwoForward_head sf sr c0)
          have hffsf : ff = sf := htfff ▸ hsfff
          rw [← hffsf] at h2
          have hreq : fr = sr :=
            (pawnForward_geom ff hffm fr hfrm sr hsrm c0 hcm).2.1 hval2 (h1.symm.trans h2)
          have hveq : v = ⟨c0, PType.P⟩ := by
            rw [← hffsf, ← hreq] at hgv
            rw [hgv] at hg
            exact Option.some_inj.mp hg
          rw [← hffsf, ← hreq, hveq]
        · rw [hocc2] at hemp
          cases hemp
    rw [hcand]
  · -- diagonal capture
    have hocc2 : posGet g.position ([tf, tr] : Square) = some tp := hocc
    have hsan : generateMoveSAN g [ff, fr] [tf, tr] ⟨c0, PType.P⟩
        (posGet g.position [tf, tr]) = [ff, 'x', tf, tr] := by
      rw [hocc2]
      simp [generateMoveSAN, renderOptChar]
    rw [hsan]
    have hid : jsTrim (stripSANSuffix [ff, 'x', tf, tr]) = [ff, 'x', tf, tr] :=
      stripTrim_id rfl rfl (isFileChar_props hff).2.2.2.1 (isRankChar_props htr).2.2.2.1
        (isRankChar_props htr).2.2.2.2.1
    obtain ⟨hca, hcb, hcc, hcd⟩ :=
      ne_castles_of_head (rfl : ([ff, 'x', tf, tr] : List Char).head? = some ff)
        (isFileChar_props hff).2.1 (isFileChar_props hff).2.2.1
    rw [parseSAN_via_shape hid hca hcb hcc hcd (matchSANShape_pawnCap hff htf htr)]
    have htpcur : tp.color ≠ g.currentPlayer := by
      rw [← hcol2]
      exact htpc
    have hcand : findCandidatePieces g 'P' [tf, tr] (some ff) none true = [[ff, fr]] := by
      rw [findCandidatePieces]
      apply filterMap_if_single hwf.2 (mem_of_posGet_eq_some hg)
      · exact candidateOK_build_cap hcol2 rfl
          (fun fc hfc => by rw [Option.some_inj.mp hfc]; rfl)
          (fun rc hrc => by cases hrc) hm hocc2 htpcur
      · rintro ⟨sq, v⟩ hev hok
        obtain ⟨hokc, hokt, hokf, -, hokm⟩ := candidateOK_parts hok
        have hvp : v.ptype = PType.P := typeChar_inj _ _ hokt
        have hgv : posGet g.position sq = some v := posGet_eq_some_of_mem hwf.2 hev
        have hvc : v.color = c0 := hokc.trans hcol2.symm
        have hpm2 : ([tf, tr] : Square) ∈ getPawnMoves g.position sq c0 := by
          rw [← hvc]
          exact mem_getValidMoves_pawn hgv hvp hokm
        obtain ⟨sf, sr, rfl, hsf, hsr⟩ := isValidSquare_shape (hwf.1 _ hev)
        have hsrm := mem_ranksList_of_isRankChar hsr
        have hffsf : ff = sf := (Option.some_inj.mp (hokf ff rfl)).symm
        rw [← hffsf] at hpm2 hgv
        rcases mem_getPawnMoves hpm2 with ⟨-, h2emp⟩ | ⟨-, -, -, h2emp⟩ |
          ⟨off2, hoff2, h2, hinb2, tp2, hocc3, -⟩
        · rw [hocc2] at h2emp
          cases h2emp
        · rw [hocc2] at h2emp
          cases h2emp
        · have hreq : fr = sr :=
            pawnCapture_geom ff hffm fr hfrm sr hsrm c0 hcm off hoff off2 hoff2
              (h1.symm.trans h2) hinb hinb2
          have hveq : v = ⟨c0, PType.P⟩ := by
            rw [← hreq] at hgv
            rw [hgv] at hg
            exact Option.some_inj.mp hg
          rw [← hffsf, ← hreq, hveq]
    rw [hcand]

/-! ## Round trip for non-pawn moves -/

theorem canMoveTo_enemy {pos : ChessPosition} {f t : Square} {pc tp : Piece}
    (hf : posGet pos f = some pc) (ht : posGet pos t = some tp)
    (h : canMoveTo pos f t = true) : tp.color ≠ pc.color := by
  rw [canMoveTo.eq_def, hf, ht] at h
  exact of_decide_eq_true h

theorem getValidMoves_canMoveTo {g : GameState} {s t : Square}
    (h : t ∈ getValidMoves g s) : canMoveTo g.position s t = true :=
  (mem_getValidMoves_cases h).choose_spec.2.2.2.1

theorem isPieceChar_typeChar {pt : PType} (h : pt ≠ PType.P) :
    isPieceChar (typeChar pt) = true := by
  cases pt <;> first
    | exact absurd rfl h
    | decide

/-- For a non-pawn piece the codec renders letter, disambiguator, capture
cross and destination. -/
theorem generateMoveSAN_nonpawn {g : GameState} {f t : Square} {pc : Piece}
    {cap : Option Piece} (hnp : pc.ptype ≠ PType.P) :
    generateMoveSAN g f t pc cap =
      [typeChar pc.ptype] ++
        (if 0 < (findAmbiguousMoves g f t pc).length then
          (if !(findAmbiguousMoves g f t pc).any (fun mv => decide (mv.head? = f.head?)) then
            renderOptChar f.head?
          else if !(findAmbiguousMoves g f t pc).any (fun mv => decide (mv[1]? = f[1]?)) then
            renderOptChar f[1]?
          else f)
        else []) ++
        (if cap.isSome then ['x'] else []) ++ t := by
  obtain ⟨c0, t0⟩ := pc
  cases t0
  case P => exact absurd rfl hnp
  all_goals rfl

/-- When the origin is the unique candidate passing the filter, the scan
returns exactly it. -/
theorem candidates_single {g : GameState} {f t : Square} {pc : Piece}
    (hwf : WFPos g.position)
    (hg : posGet g.position f = some pc) (hcol : pc.color = g.currentPlayer)
    {ptc : Char} (hptc : typeChar pc.ptype = ptc)
    {ffo fro : Option Char} {cap : Bool}
    (hfOK : candidateOK g ptc t ffo fro cap f pc = true)
    (hexc : ∀ sq v, (sq, v) ∈ g.position → sq ≠ f →
      v.color = pc.color → v.ptype = pc.ptype → t ∈ getValidMoves g sq →
      (∀ fc, ffo = some fc → sq.head? = some fc) →
      (∀ rc, fro = some rc → sq[1]? = some rc) → False) :
    findCandidatePieces g ptc t ffo fro cap = [f] := by
  rw [findCandidatePieces]
  apply filterMap_if_single hwf.2 (mem_of_posGet_eq_some hg) hfOK
  rintro ⟨sq, v⟩ hev hok
  obtain ⟨hokc, hokt, hokf, hokr, hokm⟩ := candidateOK_parts hok
  have hvt : v.ptype = pc.ptype := typeChar_inj _ _ (hokt.trans hptc.symm)
  have hvc : v.color = pc.color := hokc.trans hcol.symm
  by_cases hne : sq = f
  · subst hne
    have hgv : posGet g.position sq = some v := posGet_eq_some_of_mem hwf.2 hev
    rw [hgv] at hg
    rw [Option.some_inj.mp hg]
  · exact (hexc sq v hev hne hvc hvt hokm hokf hokr).elim

/-- Round trip of the codec for a successful non-pawn move. -/
theorem roundTrip_piece {g : GameState} {f t : Square} {pc : Piece}
    (hwf : WFPos g.position) (hsc : ScarcePos g.position)
    (hg : posGet g.position f = some pc) (hcol : pc.color = g.currentPlayer)
    (hnp : pc.ptype ≠ PType.P) (hm : t ∈ getValidMoves g f) :
    parseSAN g (generateMoveSAN g f t pc (posGet g.position t)) = some (f, t) := by
  obtain ⟨ff, fr, rfl, hff, hfr⟩ := isValidSquare_shape (hwf.1 _ (mem_of_posGet_eq_some hg))
  obtain ⟨tf, tr, rfl, htf, htr⟩ := isValidSquare_shape (mem_getValidMoves_isValid hm)
  have hlet : isPieceChar (typeChar pc.ptype) = true := isPieceChar_typeChar hnp
  have hamb := @findAmbiguousMoves_length_le_one g [ff, fr] [tf, tr] pc hwf hsc hg hnp
  cases hA : findAmbiguousMoves g [ff, fr] [tf, tr] pc with
  | nil =>
    have hexc : ∀ sq v, (sq, v) ∈ g.position → sq ≠ [ff, fr] →
        v.color = pc.color → v.ptype = pc.ptype → ([tf, tr] : Square) ∈ getValidMoves g sq →
        (∀ fc, (none : Option Char) = some fc → sq.head? = some fc) →
        (∀ rc, (none : Option Char) = some rc → sq[1]? = some rc) → False := by
      intro sq v hev hne hvc hvt hmm _ _
      have hsq : sq ∈ findAmbiguousMoves g [ff, fr] [tf, tr] pc :=
        mem_findAmbiguousMoves.mpr ⟨v, hev, hvc, hvt, hne, hmm⟩
      rw [hA] at hsq
      cases hsq
    cases hcap : posGet g.position ([tf, tr] : Square) with
    | none =>
      have hsan : generateMoveSAN g [ff, fr] [tf, tr] pc none =
          [typeChar pc.ptype, tf, tr] := by
        rw [generateMoveSAN_nonpawn hnp, hA]
        simp
      rw [hsan]
      have hid : jsTrim (stripSANSuffix [typeChar pc.ptype, tf, tr]) =
          [typeChar pc.ptype, tf, tr] :=
        stripTrim_id rfl rfl (isPieceChar_props hlet).2.2.2.1
          (isRankChar_props htr).2.2.2.1 (isRankChar_props htr).2.2.2.2.1
      obtain ⟨hca, hcb, hcc, hcd⟩ :=
        ne_castles_of_head (rfl : ([typeChar pc.ptype, tf, tr] : List Char).head? =
          some (typeChar pc.ptype)) (isPieceChar_props hlet).2.1 (isPieceChar_props hlet).2.2.1
      rw [parseSAN_via_shape hid hca hcb hcc hcd (matchSANShape_piece3 hlet htf htr)]
      rw [candidates_single hwf hg hcol rfl
        (candidateOK_build_noncap hcol rfl (fun fc hfc => by cases hfc)
          (fun rc hrc => by cases hrc) hm hcap) hexc]
    | some tp =>
      have htpe : tp.color ≠ g.currentPlayer := by
        rw [← hcol]
        exact canMoveTo_enemy hg hcap (getValidMoves_canMoveTo hm)
      have hsan : generateMoveSAN g [ff, fr] [tf, tr] pc (some tp) =
          [typeChar pc.ptype, 'x', tf, tr] := by
        rw [generateMoveSAN_nonpawn hnp, hA]
        simp
      rw [hsan]
      have hid : jsTrim (stripSANSuffix [typeChar pc.ptype, 'x', tf, tr]) =
          [typeChar pc.ptype, 'x', tf, tr] :=
        stripTrim_id rfl rfl (isPieceChar_props hlet).2.2.2.1
          (isRankChar_props htr).2.2.2.1 (isRankChar_props htr).2.2.2.2.1
      obtain ⟨hca, hcb, hcc, hcd⟩ :=
        ne_castles_of_head (rfl : ([typeChar pc.ptype, 'x', tf, tr] : List Char).head? =
          some (typeChar pc.ptype)) (isPieceChar_props hlet).2.1 (isPieceChar_props hlet).2.2.1
      rw [parseSAN_via_shape hid hca hcb hcc hcd (matchSANShape_pieceCap hlet htf htr)]
      rw [candidates_single hwf hg hcol rfl
        (candidateOK_build_cap hcol rfl (fun fc hfc => by cases hfc)
          (fun rc hrc => by cases hrc) hm hcap htpe) hexc]
  | cons a1 rest =>
    obtain rfl : rest = [] := by
      rw [hA] at hamb
      cases rest with
      | nil => rfl
      | cons b r2 => simp at hamb
    obtain ⟨v1, hv1mem, hv1c, hv1t, hv1ne, hv1m⟩ :=
      mem_findAmbiguousMoves.mp (hA ▸ List.mem_cons_self a1 [])
    obtain ⟨af, ar, rfl, haf, har⟩ := isValidSquare_shape (hwf.1 _ hv1mem)
    by_cases hsf : ([af, ar] : Square).head? = ([ff, fr] : Square).head?
    · by_cases hsr2 : ([af, ar] : Square)[1]? = ([ff, fr] : Square)[1]?
      · exfalso
        apply hv1ne
        obtain rfl : af = ff := by simpa using hsf
        obtain rfl : ar = fr := by simpa using hsr2
        rfl
      · -- rank disambiguator
        have hexc : ∀ sq v, (sq, v) ∈ g.position → sq ≠ [ff, fr] →
            v.color = pc.color → v.ptype = pc.ptype →
            ([tf, tr] : Square) ∈ getValidMoves g sq →
            (∀ fc, (none : Option Char) = some fc → sq.head? = some fc) →
            (∀ rc, (some fr : Option Char) = some rc → sq[1]? = some rc) → False := by
          intro sq v hev hne hvc hvt hmm _ hr
          have hsq : sq ∈ findAmbiguousMoves g [ff, fr] [tf, tr] pc :=
            mem_findAmbiguousMoves.mpr ⟨v, hev, hvc, hvt, hne, hmm⟩
          rw [hA] at hsq
          obtain rfl : sq = [af, ar] := by simpa using hsq
          exact hsr2 (by rw [hr fr rfl]; rfl)
        have hsanD : ∀ cap : Option Piece, generateMoveSAN g [ff, fr] [tf, tr] pc cap =
            [typeChar pc.ptype, fr] ++
              (if cap.isSome then ['x'] else []) ++ [tf, tr] := by
          intro cap
          rw [generateMoveSAN_nonpawn hnp, hA]
          rw [if_pos (by simp)]
          rw [if_neg ?hc1, if_pos ?hc2]
          case hc1 =>
            simp only [List.any_cons, List.any_nil, Bool.or_false,
              decide_eq_true hsf, Bool.not_true]
            simp
          case hc2 =>
            simp only [List.any_cons, List.any_nil, Bool.or_false,
              decide_eq_false hsr2, Bool.not_false]
          rfl
        cases hcap : posGet g.position ([tf, tr] : Square) with
        | none =>
          have hsan : generateMoveSAN g [ff, fr] [tf, tr] pc none =
              [typeChar pc.ptype, fr, tf, tr] := by
            rw [hsanD none]
            simp
          rw [hsan]
          have hid : jsTrim (stripSANSuffix [typeChar pc.ptype, fr, tf, tr]) =
              [typeChar pc.ptype, fr, tf, tr] :=
            stripTrim_id rfl rfl (isPieceChar_props hlet).2.2.2.1
              (isRankChar_props htr).2.2.2.1 (isRankChar_props htr).2.2.2.2.1
          obtain ⟨hca, hcb, hcc, hcd⟩ :=
            ne_castles_of_head (rfl : ([typeChar pc.ptype, fr, tf, tr] : List Char).head? =
              some (typeChar pc.ptype)) (isPieceChar_props hlet).2.1
              (isPieceChar_props hlet).2.2.1
          rw [parseSAN_via_shape hid hca hcb hcc hcd
            (matchSANShape_rankDis hlet hfr htf htr)]
          rw [candidates_single hwf hg hcol rfl
            (candidateOK_build_noncap hcol rfl (fun fc hfc => by cases hfc)
              (fun rc hrc => by rw [← Option.some_inj.mp hrc]; rfl) hm hcap) hexc]
        | some tp =>
          have htpe : tp.color ≠ g.currentPlayer := by
            rw [← hcol]
            exact canMoveTo_enemy hg hcap (getValidMoves_canMoveTo hm)
          have hsan : generateMoveSAN g [ff, fr] [tf, tr] pc (some tp) =
              [typeChar pc.ptype, fr, 'x', tf, tr] := by
            rw [hsanD (some tp)]
            simp
          rw [hsan]
          have hid : jsTrim (stripSANSuffix [typeChar pc.ptype, fr, 'x', tf, tr]) =
              [typeChar pc.ptype, fr, 'x', tf, tr] :=
            stripTrim_id rfl rfl (isPieceChar_props hlet).2.2.2.1
              (isRankChar_props htr).2.2.2.1 (isRankChar_props htr).2.2.2.2.1
          obtain ⟨hca, hcb, hcc, hcd⟩ :=
            ne_castles_of_head
              (rfl : ([typeChar pc.ptype, fr, 'x', tf, tr] : List Char).head? =
                some (typeChar pc.ptype)) (isPieceChar_props hlet).2.1
              (isPieceChar_props hlet).2.2.1
          rw [parseSAN_via_shape hid hca hcb hcc hcd
            (matchSANShape_rankDisCap hlet hfr htf htr)]
          rw [candidates_single hwf hg hcol rfl
            (candidateOK_build_cap hcol rfl (fun fc hfc => by cases hfc)
              (fun rc hrc => by rw [← Option.some_inj.mp hrc]; rfl) hm hcap htpe) hexc]
    · -- file disambiguator
      have hexc : ∀ sq v, (sq, v) ∈ g.position → sq ≠ [ff, fr] →
          v.color = pc.color → v.ptype = pc.ptype →
          ([tf, tr] : Square) ∈ getValidMoves g sq →
          (∀ fc, (some ff : Option Char) = some fc → sq.head? = some fc) →
          (∀ rc, (none : Option Char) = some rc → sq[1]? = some rc) → False := by
        intro sq v hev hne hvc hvt hmm hfcs _
        have hsq : sq ∈ findAmbiguousMoves g [ff, fr] [tf, tr] pc :=
          mem_findAmbiguousMoves.mpr ⟨v, hev, hvc, hvt, hne, hmm⟩
        rw [hA] at hsq
        obtain rfl : sq = [af, ar] := by simpa using hsq
        exact hsf (by rw [hfcs ff rfl]; rfl)
      have hsanD : ∀ cap : Option Piece, generateMoveSAN g [ff, fr] [tf, tr] pc cap =
          [typeChar pc.ptype, ff] ++
            (if cap.isSome then ['x'] else []) ++ [tf, tr] := by
        intro cap
        rw [generateMoveSAN_nonpawn hnp, hA]
        rw [if_pos (by simp)]
        rw [if_pos ?hc1]
        case hc1 =>
          simp only [List.any_cons, List.any_nil, Bool.or_false,
            decide_eq_false hsf, Bool.not_false]
        rfl
      cases hcap : posGet g.position ([tf, tr] : Square) with
      | none =>
        have hsan : generateMoveSAN g [ff, fr] [tf, tr] pc none =
            [typeChar pc.ptype, ff, tf, tr] := by
          rw [hsanD none]
          simp
        rw [hsan]
        have hid : jsTrim (stripSANSuffix [typeChar pc.ptype, ff, tf, tr]) =
            [typeChar pc.ptype, ff, tf, tr] :=
          stripTrim_id rfl rfl (isPieceChar_props hlet).2.2.2.1
            (isRankChar_props htr).2.2.2.1 (isRankChar_props htr).2.2.2.2.1
        obtain ⟨hca, hcb, hcc, hcd⟩ :=
          ne_castles_of_head (rfl : ([typeChar pc.ptype, ff, tf, tr] : List Char).head? =
            some (typeChar pc.ptype)) (isPieceChar_props hlet).2.1
            (isPieceChar_props hlet).2.2.1
        rw [parseSAN_via_shape hid hca hcb hcc hcd
          (matchSANShape_fileDis hlet hff htf htr)]
        rw [candidates_single hwf hg hcol rfl
          (candidateOK_build_noncap hcol rfl
            (fun fc hfc => by rw [← Option.some_inj.mp hfc]; rfl)
            (fun rc hrc => by cases hrc) hm hcap) hexc]
      | some tp =>
        have htpe : tp.color ≠ g.currentPlayer := by
          rw [← hcol]
          exact canMoveTo_enemy hg hcap (getValidMoves_canMoveTo hm)
        have hsan : generateMoveSAN g [ff, fr] [tf, tr] pc (some tp) =
            [typeChar pc.ptype, ff, 'x', tf, tr] := by
          rw [hsanD (some tp)]
          simp
        rw [hsan]
        have hid : jsTrim (stripSANSuffix [typeChar pc.ptype, ff, 'x', tf, tr]) =
            [typeChar pc.ptype, ff, 'x', tf, tr] :=
          stripTrim_id rfl rfl (isPieceChar_props hlet).2.2.2.1
            (isRankChar_props htr).2.2.2.1 (isRankChar_props htr).2.2.2.2.1
        obtain ⟨hca, hcb, hcc, hcd⟩ :=
          ne_castles_of_head
            (rfl : ([typeChar pc.ptype, ff, 'x', tf, tr] : List Char).head? =
              some (typeChar pc.ptype)) (isPieceChar_props hlet).2.1
            (isPieceChar_props hlet).2.2.1
        rw [parseSAN_via_shape hid hca hcb hcc hcd
          (matchSANShape_fileDisCap hlet hff htf htr)]
        rw [candidates_single hwf hg hcol rfl
          (candidateOK_build_cap hcol rfl
            (fun fc hfc => by rw [← Option.some_inj.mp hfc]; rfl)
            (fun rc hrc => by cases hrc) hm hcap htpe) hexc]

/-- C2: round trip of the notation codec — for every state reachable from
the starting position by successful applies, and every `apply(from,to)`
that succeeds from it producing SAN `s`, `parse(s)` evaluated against the
pre-move state returns exactly `(from, to)`.  (With at most two same-kind
pieces per colour — no promotion exists — the generated disambiguators
always cut the candidates to exactly one, so the deterministic first-found
tie-break for under-disambiguated input is never exercised on generated
SAN.) -/
theorem sanRoundTrip (g : GameState) (hr : Reachable g) (f t : Square) (g2 : GameState)
    (h : makeMove g f t = (true, g2)) :
    parseSAN g (getLastMoveSAN g2) = some (f, t) := by
  obtain ⟨hwf, hsc⟩ := reachable_good hr
  obtain ⟨pc, hg, hcol, hm, rfl⟩ := makeMove_success_shape_wf hwf h
  have hlast : getLastMoveSAN
      { position := posDel (posSet g.position t pc) f
        currentPlayer := flipColor g.currentPlayer
        moveHistory := g.moveHistory ++
          [{ fromSq := f, toSq := t, piece := pc,
             captured := posGet g.position t,
             san := generateMoveSAN g f t pc (posGet g.position t) }] } =
      generateMoveSAN g f t pc (posGet g.position t) := by
    simp [getLastMoveSAN, List.getLast?_concat]
  rw [hlast]
  by_cases hpt : pc.ptype = PType.P
  · exact roundTrip_pawn hwf hg hcol hpt hm
  · exact roundTrip_piece hwf hsc hg hcol hpt hm

theorem sanRoundTrip_witness :
    parseSAN initialGame (getLastMoveSAN afterE4) = some (['e','2'], ['e','4']) :=
  sanRoundTrip initialGame Reachable.base ['e','2'] ['e','4'] afterE4 (by decide)
